import Mathlib

/-!
Verification of the go-ia numeric core: the half-precision float codec
(`float16` package) and the `Shape`/`Tensor` container (tensor part of the
repository).  Functions are embedded shallowly: IEEE bit patterns are `Nat`
with explicit masking, Go `int` is `Int`, Go panics are `Except`/`Option`
errors.
-/

namespace GoIA

/-! ## Float16 codec (package float16), on raw bit patterns -/
/-- The function `FF32`: encode a float32 (given as its 32-bit IEEE pattern) into the
16-bit half pattern.  Mirrors the Go source line by line. -/
def FF32 (bits : Nat) : Nat :=
  let sign := bits >>> 31
  let exp := (bits >>> 23) &&& 0xff
  let frac := bits &&& 0x7fffff
  if exp = 0xff then
    if frac ≠ 0 then 0x7FFF
    else ((sign <<< 15) % 65536) ||| 0x7C00
  else if exp = 0 then
    let frac := frac >>> 13
    ((sign <<< 15) % 65536) ||| (frac % 65536)
  else
    let sexp : Int := (exp : Int) - 127 + 15
    if 0x1f ≤ sexp then ((sign <<< 15) % 65536) ||| 0x7C00
    else if sexp ≤ 0 then
      let frac := frac >>> (1 - sexp).toNat
      ((sign <<< 15) % 65536) ||| ((frac >>> 13) % 65536)
    else
      ((sign <<< 15) % 65536) ||| ((sexp.toNat <<< 10) % 65536) |||
        ((frac >>> 13) % 65536)

/-- The function `FF64`: encode a float64 (given as its 64-bit IEEE pattern) into the
16-bit half pattern.  Mirrors the Go source line by line; note the
underflow branch truncates by 13 bits exactly as written in the source. -/
def FF64 (bits : Nat) : Nat :=
  let sign := bits >>> 63
  let exp := (bits >>> 52) &&& 0x7ff
  let frac := bits &&& 0xfffffffffffff
  if exp = 0x7ff then
    if frac ≠ 0 then 0x7FFF
    else ((sign <<< 15) % 65536) ||| 0x7C00
  else if exp = 0 then
    let frac := frac >>> 42
    ((sign <<< 15) % 65536) ||| (frac % 65536)
  else
    let sexp : Int := (exp : Int) - 1023 + 15
    if 0x1f ≤ sexp then ((sign <<< 15) % 65536) ||| 0x7C00
    else if sexp ≤ 0 then
      let frac := frac >>> (1 - sexp).toNat
      ((sign <<< 15) % 65536) ||| ((frac >>> 13) % 65536)
    else
      ((sign <<< 15) % 65536) ||| ((sexp.toNat <<< 10) % 65536) |||
        ((frac >>> 42) % 65536)

/-- Renormalization loop of the half decoders: shift `frac` left and
decrement `exp` until bit 10 is set.  The fuel (11 suffices for a 10-bit
mantissa) only makes the recursion structural; it is never exhausted on
the inputs the decoders produce. -/
def renorm : Nat → Nat → Int → Nat × Int
  | 0, frac, exp => (frac, exp)
  | fuel + 1, frac, exp =>
    if frac &&& 0x400 = 0 then renorm fuel (frac <<< 1) (exp - 1)
    else (frac, exp)

/-- The function `Float16.ToF32`: decode a 16-bit half pattern into a 32-bit IEEE
pattern.  Mirrors the Go source; note the zero case drops the sign bit. -/
def ToF32 (f16 : Nat) : Nat :=
  let sign := (f16 >>> 15) &&& 0x1
  let exp := (f16 >>> 10) &&& 0x1f
  let frac := f16 &&& 0x3ff
  if exp = 0x1f then
    if frac ≠ 0 then (0xff <<< 23) ||| (frac <<< 13) ||| 0x1
    else (sign <<< 31) ||| (0xff <<< 23)
  else if frac = 0 ∧ exp = 0 then 0
  else
    let p : Nat × Int :=
      if exp = 0 then
        let r := renorm 11 frac 0
        (r.1 &&& 0x3ff, r.2 + 1)
      else (frac, (exp : Int))
    let exp := p.2 + (127 - 15)
    (sign <<< 31) ||| (exp.toNat <<< 23) ||| (p.1 <<< 13)

/-- The function `Float16.ToF64`: decode a 16-bit half pattern into a 64-bit IEEE
pattern.  Mirrors the Go source; note the zero case drops the sign bit. -/
def ToF64 (f16 : Nat) : Nat :=
  let sign := (f16 >>> 15) &&& 0x1
  let exp := (f16 >>> 10) &&& 0x1f
  let frac := f16 &&& 0x3ff
  if exp = 0x1f then
    if frac ≠ 0 then (0x7ff <<< 52) ||| (frac <<< 42) ||| 0x1
    else (sign <<< 63) ||| (0x7ff <<< 52)
  else if frac = 0 ∧ exp = 0 then 0
  else
    let p : Nat × Int :=
      if exp = 0 then
        let r := renorm 11 frac 0
        (r.1 &&& 0x3ff, r.2 + 1)
      else (frac, (exp : Int))
    let exp := p.2 + (1023 - 15)
    (sign <<< 63) ||| (exp.toNat <<< 52) ||| (p.1 <<< 42)

/-! ## Go builtin float conversions (used by `NewTensor` when reconciling
a supplied buffer's precision with the requested tag) -/
/-- Round-to-nearest-even shift right by `sh` bits. -/
def roundRNE (m sh : Nat) : Nat :=
  if sh = 0 then m
  else
    let q := m >>> sh
    let r := m % (2 ^ sh)
    let half := 2 ^ (sh - 1)
    if half < r ∨ (r = half ∧ q % 2 = 1) then q + 1 else q

/-- Go's widening conversion `float64(x)` for `x : float32`, on IEEE bit
patterns (exact). -/
def f32to64 (b : Nat) : Nat :=
  let s := (b >>> 31) &&& 1
  let e := (b >>> 23) &&& 0xff
  let m := b &&& 0x7fffff
  if e = 0xff then (s <<< 63) ||| (0x7ff <<< 52) ||| (m <<< 29)
  else if e = 0 then
    if m = 0 then s <<< 63
    else
      let j := Nat.log2 m
      (s <<< 63) ||| ((j + 874) <<< 52) ||| ((m - 2 ^ j) <<< (52 - j))
  else (s <<< 63) ||| ((e + 896) <<< 52) ||| (m <<< 29)

/-- Go's narrowing conversion `float32(x)` for `x : float64`, on IEEE bit
patterns (round to nearest, ties to even). -/
def f64to32 (b : Nat) : Nat :=
  let s := (b >>> 63) &&& 1
  let e := (b >>> 52) &&& 0x7ff
  let m := b &&& 0xfffffffffffff
  if e = 0x7ff then
    if m = 0 then (s <<< 31) ||| (0xff <<< 23)
    else (s <<< 31) ||| (0xff <<< 23) |||
      (if m >>> 29 = 0 then 0x400000 else m >>> 29)
  else
    let M := if e = 0 then m else 2 ^ 52 + m
    if M = 0 then s <<< 31
    else if 897 ≤ e then
      let q := roundRNE M 29
      let e32 := e - 896
      let p : Nat × Nat := if q = 2 ^ 24 then (e32 + 1, 2 ^ 23) else (e32, q)
      if 255 ≤ p.1 then (s <<< 31) ||| (0xff <<< 23)
      else (s <<< 31) ||| (p.1 <<< 23) ||| (p.2 - 2 ^ 23)
    else
      let q := roundRNE M (926 - e)
      (s <<< 31) ||| q

/-! ## Shape -/
/-- A tensor shape: one `int` per axis (Go `type Shape []int`). -/
abbrev Shape := List Int

/-- The function `Shape.Dim`: number of axes. -/
def Shape.Dim (sh : Shape) : Int := (sh.length : Int)

/-- The function `Shape.Len`: product of all axis sizes (loop `ln *= sh[i]`). -/
def Shape.Len (sh : Shape) : Int := sh.foldl (· * ·) 1

/-- The function `Shape.StrideOf`: the source loops `for i := 1; i < len(sh); i++`
multiplying `sh[i]`, never reading `dim`; the parameter is kept to match
the signature. -/
def Shape.StrideOf (sh : Shape) (dim : Int) : Int :=
  (sh.drop 1).foldl (· * ·) 1

/-- Stride accumulation loop: `strides[0] = 1`,
`strides[i] = strides[i-1] * sh[i-1]`. -/
def stridesAcc (acc : Int) : List Int → List Int
  | [] => []
  | x :: xs => acc :: stridesAcc (acc * x) xs

/-- The function `Shape.Strides`: derived strides.  The source allocates
`make([]int, len(sh))` and writes `strides[0] = 1`, which panics
(`none`) on a rank-0 shape. -/
def Shape.Strides (sh : Shape) : Option (List Int) :=
  match sh with
  | [] => none
  | _ => some (stridesAcc 1 sh)

/-- The function `Shape.Key`: index template of length `Dim` filled with `-1`. -/
def Shape.Key (sh : Shape) : List Int :=
  List.replicate sh.length (-1)

/-- Element comparison loop of `Shape.Equal`: walks the first shape's
indices; reading past the second shape's bounds is a Go runtime panic,
modelled as `none`. -/
def equalLoop : List Int → List Int → Option Bool
  | [], _ => some true
  | _ :: _, [] => none
  | a :: as_, b :: bs => if a ≠ b then some false else equalLoop as_ bs

/-- The function `Shape.Equal`: total-length check first, then element comparison up to
the first shape's rank. -/
def Shape.Equal (sh other : Shape) : Option Bool :=
  if Shape.Len sh ≠ Shape.Len other then some false
  else equalLoop sh other

/-! ## Spec-side product definitions (for comparison with the source) -/
/-- Modelled from the spec's words: "product of all axis sizes strictly
after `axis`". -/
def specProdAfter (sh : Shape) (axis : Nat) : Int :=
  (sh.drop (axis + 1)).foldl (· * ·) 1

/-- Modelled from the spec's words: the derived stride
"stride[i] = stride[i-1] * shape[i-1]", i.e. the product of all axis
sizes strictly before `axis`. -/
def specProdBefore (sh : Shape) (axis : Nat) : Int :=
  (sh.take axis).foldl (· * ·) 1

/-! ## Tensor data model -/
/-- Precision tag (Go `type Type int` with the three valid constants). -/
inductive Ty where
  | f16 : Ty
  | f32 : Ty
  | f64 : Ty
deriving DecidableEq, Repr

/-- The tensor's buffer: exactly one of the three homogeneous slices,
elements stored as raw IEEE bit patterns. -/
inductive Buf where
  | f16 : List Nat → Buf
  | f32 : List Nat → Buf
  | f64 : List Nat → Buf
deriving DecidableEq, Repr

/-- A single element value as handed out by the generic accessors
(Go `any` holding one of the three element types). -/
inductive Val where
  | f16 : Nat → Val
  | f32 : Nat → Val
  | f64 : Nat → Val
deriving DecidableEq, Repr

/-- Error kinds: the five panic values of the source plus `runtime` for
Go runtime panics (slice index out of range, failed type assertion,
including the panic raised by `Strides` on a rank-0 shape). -/
inductive Err where
  | invalidShape : Err
  | dimMismatch : Err
  | indexOutOfRange : Err
  | invalidData : Err
  | typeMismatch : Err
  | runtime : Err
deriving DecidableEq, Repr

/-- Equality of `Except` results is decidable when both components are. -/
instance {ε α : Type} [DecidableEq ε] [DecidableEq α] :
    DecidableEq (Except ε α) := fun a b =>
  match a, b with
  | .ok x, .ok y =>
    if h : x = y then isTrue (by rw [h])
    else isFalse fun c => h (Except.ok.inj c)
  | .error x, .error y =>
    if h : x = y then isTrue (by rw [h])
    else isFalse fun c => h (Except.error.inj c)
  | .ok _, .error _ => isFalse fun c => Except.noConfusion c
  | .error _, .ok _ => isFalse fun c => Except.noConfusion c

/-- Variant tag of a buffer. -/
def Buf.ty : Buf → Ty
  | .f16 _ => .f16
  | .f32 _ => .f32
  | .f64 _ => .f64

/-- Underlying element list of a buffer. -/
def Buf.list : Buf → List Nat
  | .f16 l => l
  | .f32 l => l
  | .f64 l => l

/-- Variant tag of a value. -/
def Val.ty : Val → Ty
  | .f16 _ => .f16
  | .f32 _ => .f32
  | .f64 _ => .f64

/-- Wrap a raw pattern in the value constructor of the given precision. -/
def Ty.val : Ty → Nat → Val
  | .f16, x => .f16 x
  | .f32, x => .f32 x
  | .f64, x => .f64 x

/-- The tensor record (Go `struct { rank int; data any; shape Shape;
typ Type; strides []int }`). -/
structure Tensor where
  rank : Nat
  data : Buf
  shape : Shape
  typ : Ty
  strides : List Int
deriving DecidableEq, Repr

/-- Axis validation loop shared by `NewTensor` and `Reshape`: panic with
`InvalidShape` on the first axis size `≤ 0`. -/
def checkAxes : Shape → Except Err Unit
  | [] => .ok ()
  | x :: xs => if x ≤ 0 then .error .invalidShape else checkAxes xs

/-- The function `NewTensor`: validate the shape, allocate a zero buffer when none is
supplied (note the source allocates `[]float32` for `Float64` and
`[]float64` for `Float32`; the conversion step below repairs the
representation), then reconcile the buffer's precision with the requested
tag through the codec. -/
def NewTensor (data : Option Buf) (typ : Ty) (shape : Shape) :
    Except Err Tensor := do
  checkAxes shape
  let d0 : Buf :=
    match data with
    | none =>
      match typ with
      | .f16 => .f16 (List.replicate (Shape.Len shape).toNat 0)
      | .f64 => .f32 (List.replicate (Shape.Len shape).toNat 0)
      | .f32 => .f64 (List.replicate (Shape.Len shape).toNat 0)
    | some d => d
  let d1 : Buf ←
    match d0 with
    | .f16 v =>
      if (v.length : Int) ≠ Shape.Len shape then .error .invalidShape
      else if typ = .f32 then .ok (.f32 (v.map ToF32))
      else if typ = .f64 then .ok (.f64 (v.map ToF64))
      else .ok (.f16 v)
    | .f64 v =>
      if (v.length : Int) ≠ Shape.Len shape then .error .invalidShape
      else if typ = .f16 then .ok (.f16 (v.map FF64))
      else if typ = .f32 then .ok (.f32 (v.map f64to32))
      else .ok (.f64 v)
    | .f32 v =>
      if (v.length : Int) ≠ Shape.Len shape then .error .invalidShape
      else if typ = .f16 then .ok (.f16 (v.map FF32))
      else if typ = .f64 then .ok (.f64 (v.map f32to64))
      else .ok (.f32 v)
  match Shape.Strides shape with
  | none => .error .runtime
  | some st => .ok ⟨shape.length, d1, shape, typ, st⟩

/-- The function `Tensor.Rank`. -/
def Tensor.Rank (ts : Tensor) : Nat := ts.rank

/-- The function `Tensor.Shape` accessor (returns a copy; copies are value-equal
here). -/
def Tensor.ShapeOf (ts : Tensor) : Shape := ts.shape

/-- Buffer-length check of `Reshape`: switch on the tag, type-assert the
buffer (Go runtime panic on mismatch), compare its length with the new
shape's total length. -/
def lenCheck (typ : Ty) (b : Buf) (L : Int) : Except Err Unit :=
  match typ, b with
  | .f16, .f16 v =>
    if (v.length : Int) ≠ L then .error .invalidShape else .ok ()
  | .f32, .f32 v =>
    if (v.length : Int) ≠ L then .error .invalidShape else .ok ()
  | .f64, .f64 v =>
    if (v.length : Int) ≠ L then .error .invalidShape else .ok ()
  | _, _ => .error .runtime

/-- The function `Tensor.Reshape`: validate the axis sizes and that the new total
length matches the buffer, then replace shape, strides and rank.  The
buffer is untouched. -/
def Tensor.Reshape (ts : Tensor) (shape : Shape) : Except Err Tensor := do
  checkAxes shape
  lenCheck ts.typ ts.data (Shape.Len shape)
  match Shape.Strides shape with
  | none => .error .runtime
  | some st => .ok { ts with shape := shape, strides := st, rank := shape.length }

/-- Mixed-radix digit extraction of `Tensor.index`: walk the strides from
the axis with the largest stride down, `index[i] = offset / strides[i]`,
`offset %= strides[i]` (Go `/` and `%` truncate toward zero).  Returns
the digit list together with the final remaining offset. -/
def digits (offset : Int) : List Int → List Int × Int
  | [] => ([], offset)
  | s :: rest =>
    match digits offset rest with
    | (ds, off2) => (off2.tdiv s :: ds, off2.tmod s)

/-- The function `Tensor.index`: multi-index for a flat offset (constructed tensors
always have one stride per axis). -/
def Tensor.index (ts : Tensor) (offset : Int) : List Int :=
  (digits offset ts.strides).1

/-- Stride/index dot product of `Tensor.offset`; reading a stride past
the strides' bounds is a Go runtime panic (`none`). -/
def offsetGo : List Int → List Int → Option Int
  | _, [] => some 0
  | [], _ :: _ => none
  | s :: ss, i :: is_ => (offsetGo ss is_).map (fun o => s * i + o)

/-- The function `Tensor.offset`: flat offset of a multi-index. -/
def Tensor.offset (ts : Tensor) (index : List Int) : Option Int :=
  offsetGo ts.strides index

/-- The function `Tensor.testOffset`: panic with `IndexOutOfRange` when
`offset < 0 || offset > shape.Len()` (note `>` — the offset `Len()`
itself passes). -/
def Tensor.testOffset (ts : Tensor) (offset : Int) : Except Err Unit :=
  if offset < 0 ∨ Shape.Len ts.shape < offset then .error .indexOutOfRange
  else .ok ()

/-- Read a buffer element at a flat offset: the type assertion on the
buffer must match the tag (else a Go runtime panic), and the offset must
be inside the slice (else a Go runtime panic). -/
def Buf.read (typ : Ty) (b : Buf) (offset : Int) : Except Err Val :=
  match typ, b with
  | .f16, .f16 l =>
    if h : 0 ≤ offset ∧ offset.toNat < l.length then
      .ok (.f16 (l.get ⟨offset.toNat, h.2⟩))
    else .error .runtime
  | .f32, .f32 l =>
    if h : 0 ≤ offset ∧ offset.toNat < l.length then
      .ok (.f32 (l.get ⟨offset.toNat, h.2⟩))
    else .error .runtime
  | .f64, .f64 l =>
    if h : 0 ≤ offset ∧ offset.toNat < l.length then
      .ok (.f64 (l.get ⟨offset.toNat, h.2⟩))
    else .error .runtime
  | _, _ => .error .runtime

/-- Write a buffer element at a flat offset: buffer assertion first (Go
runtime panic on mismatch), then the value's representation is checked
against the tag (`TypeMismatch`), then the bounds (runtime panic). -/
def Buf.write (typ : Ty) (b : Buf) (offset : Int) (v : Val) :
    Except Err Buf :=
  match typ, b with
  | .f16, .f16 l =>
    match v with
    | .f16 x =>
      if 0 ≤ offset ∧ offset.toNat < l.length then
        .ok (.f16 (l.set offset.toNat x))
      else .error .runtime
    | _ => .error .typeMismatch
  | .f32, .f32 l =>
    match v with
    | .f32 x =>
      if 0 ≤ offset ∧ offset.toNat < l.length then
        .ok (.f32 (l.set offset.toNat x))
      else .error .runtime
    | _ => .error .typeMismatch
  | .f64, .f64 l =>
    match v with
    | .f64 x =>
      if 0 ≤ offset ∧ offset.toNat < l.length then
        .ok (.f64 (l.set offset.toNat x))
      else .error .runtime
    | _ => .error .typeMismatch
  | _, _ => .error .runtime

/-- Internal unchecked `get` (by multi-index). -/
def Tensor.get (ts : Tensor) (index : List Int) : Except Err Val :=
  match offsetGo ts.strides index with
  | none => .error .runtime
  | some off => Buf.read ts.typ ts.data off

/-- Internal `at` (by flat offset). -/
def Tensor.at (ts : Tensor) (offset : Int) : Except Err Val :=
  Buf.read ts.typ ts.data offset

/-- The function `Tensor.GetAt`: validated flat-offset read. -/
def Tensor.GetAt (ts : Tensor) (offset : Int) : Except Err Val := do
  ts.testOffset offset
  ts.at offset

/-- Internal unchecked `setAt`. -/
def Tensor.setAt (ts : Tensor) (offset : Int) (v : Val) :
    Except Err Tensor :=
  (Buf.write ts.typ ts.data offset v).map fun b => { ts with data := b }

/-- The function `Tensor.SetAt`: validated flat-offset write. -/
def Tensor.SetAt (ts : Tensor) (offset : Int) (v : Val) :
    Except Err Tensor := do
  ts.testOffset offset
  ts.setAt offset v

/-- Index bound loop of `testIndex`/`testKey`: the length guard has
already ensured the index and shape have equal lengths, so the walk is in
lockstep. -/
def testIndexLoop (low : Int) : List Int → List Int → Except Err Unit
  | [], _ => .ok ()
  | i :: is_, s :: ss =>
    if i < low ∨ s ≤ i then .error .indexOutOfRange
    else testIndexLoop low is_ ss
  | _ :: _, [] => .error .runtime

/-- The function `Tensor.testIndex`: `DimMismatch` when the index length differs from
the rank, `IndexOutOfRange` when a component leaves `[0, axisSize)`. -/
def Tensor.testIndex (ts : Tensor) (index : List Int) : Except Err Unit :=
  if index.length ≠ ts.shape.length then .error .dimMismatch
  else testIndexLoop 0 index ts.shape

/-- The function `Tensor.testKey`: like `testIndex` but a component may also be the
wildcard `-1`. -/
def Tensor.testKey (ts : Tensor) (index : List Int) : Except Err Unit :=
  if index.length ≠ ts.shape.length then .error .dimMismatch
  else testIndexLoop (-1) index ts.shape

/-- The function `Tensor.Get`: validated multi-index read. -/
def Tensor.Get (ts : Tensor) (index : List Int) : Except Err Val := do
  ts.testIndex index
  ts.get index

/-- Internal unchecked `set` (by multi-index). -/
def Tensor.set (ts : Tensor) (index : List Int) (v : Val) :
    Except Err Tensor :=
  match offsetGo ts.strides index with
  | none => .error .runtime
  | some off => ts.setAt off v

/-- The function `Tensor.Set`: validated multi-index write. -/
def Tensor.Set (ts : Tensor) (index : List Int) (v : Val) :
    Except Err Tensor := do
  ts.testIndex index
  ts.set index v

/-- Well-formedness of every constructed tensor: at least one axis, all
axis sizes positive, buffer variant matching the tag, buffer length equal
to the shape's total length, cached strides equal to the derived strides,
rank equal to the number of axes. -/
def Tensor.WF (ts : Tensor) : Prop :=
  ts.shape ≠ [] ∧ (∀ x ∈ ts.shape, 0 < x) ∧
    ts.data.ty = ts.typ ∧
    (ts.data.list.length : Int) = Shape.Len ts.shape ∧
    Shape.Strides ts.shape = some ts.strides ∧
    ts.rank = ts.shape.length

instance (ts : Tensor) : Decidable ts.WF := by
  unfold Tensor.WF
  infer_instance

/-! ## Claim C3: GetAt/SetAt flat-offset bounds -/
/-- A small concrete well-formed tensor: two float64 elements, shape
`[2]`. -/
def t2 : Tensor := ⟨1, .f64 [0, 0], [2], .f64, [1]⟩

/-! ## Claim C4: NewTensor with no supplied buffer -/
/-- The zero-filled buffer of a precision. -/
def zeroBuf (typ : Ty) (n : Nat) : Buf :=
  match typ with
  | .f16 => .f16 (List.replicate n 0)
  | .f32 => .f32 (List.replicate n 0)
  | .f64 => .f64 (List.replicate n 0)

/-! ## Claim C6: Reshape -/
/-- A concrete one-element well-formed tensor. -/
def t3 : Tensor := ⟨1, .f64 [7], [1], .f64, [1]⟩

/-- Coordinate merge of `GetSub`'s loop body: destination coordinates on
wildcard axes, the key's fixed coordinate elsewhere (Go copies the
destination index and then overwrites the non-wildcard positions). -/
def mergeKey (key dst : List Int) : List Int :=
  List.zipWith (fun k d => if k ≠ -1 then k else d) key dst

/-- Result shape of `GetSub`: wildcard axes keep the source size,
concrete axes collapse to 1. -/
def subShape (key sh : List Int) : Shape :=
  List.zipWith (fun k s => if k = -1 then s else 1) key sh

/-- Copy loop of `GetSub`: for each flat offset of the new tensor, read
the source at the merged coordinate and write the destination.  The
`Nat` argument counts the remaining iterations of the Go loop
`for offset := 0; offset < shape.Len(); offset++`. -/
def subLoop (ts : Tensor) (key : List Int) :
    Tensor → Int → Nat → Except Err Tensor
  | t, _, 0 => .ok t
  | t, off, n + 1 => do
    let dst := t.index off
    let v ← ts.get (mergeKey key dst)
    let t' ← t.set dst v
    subLoop ts key t' (off + 1) n

/-- The function `Tensor.GetSub`: validate the key, build the collapsed shape, create
a fresh zero tensor of the same precision and copy the selected
elements. -/
def Tensor.GetSub (ts : Tensor) (key : List Int) : Except Err Tensor := do
  ts.testKey key
  let sh := subShape key ts.shape
  let t ← NewTensor none ts.typ sh
  subLoop ts key t 0 (Shape.Len sh).toNat

/-- Equality of `float16.Float16` elements: the Go type is a `uint16`,
so `==` compares the raw 16-bit patterns. -/
def f16eq (a b : Nat) : Bool := a == b

/-- NaN test on a 32-bit IEEE pattern: all-ones exponent with a nonzero
mantissa. -/
def f32isNaN (a : Nat) : Bool :=
  (a >>> 23) &&& 0xff == 0xff && a &&& 0x7fffff != 0

/-- NaN test on a 64-bit IEEE pattern. -/
def f64isNaN (a : Nat) : Bool :=
  (a >>> 52) &&& 0x7ff == 0x7ff && a &&& 0xfffffffffffff != 0

/-- Go's `==` on `float32` values, expressed on their bit patterns: a
NaN operand compares unequal to everything (itself included), the two
signed zeros compare equal, and any other pair of values is equal
exactly when the patterns coincide. -/
def f32eq (a b : Nat) : Bool :=
  if f32isNaN a || f32isNaN b then false
  else if a &&& 0x7fffffff == 0 && b &&& 0x7fffffff == 0 then true
  else a == b

/-- Go's `==` on `float64` values, expressed on their bit patterns. -/
def f64eq (a b : Nat) : Bool :=
  if f64isNaN a || f64isNaN b then false
  else if a &&& 0x7fffffffffffffff == 0 && b &&& 0x7fffffffffffffff == 0
    then true
  else a == b

/-- Element equality of each precision: bitwise for `Float16`, IEEE for
`float32` and `float64`. -/
def Ty.elemEq : Ty → Nat → Nat → Bool
  | .f16 => f16eq
  | .f32 => f32eq
  | .f64 => f64eq

/-- Patterns excluded from reflexivity of the element comparison: NaN
patterns of the float types (the integer-typed `Float16` has none). -/
def Ty.isNaNPat : Ty → Nat → Bool
  | .f16 => fun _ => false
  | .f32 => f32isNaN
  | .f64 => f64isNaN

/-- Pointwise comparison of two whole buffers under an element
equality. -/
def eqList (eq : Nat → Nat → Bool) : List Nat → List Nat → Bool
  | [], [] => true
  | a :: as_, b :: bs => eq a b && eqList eq as_ bs
  | _, _ => false

/-- Element comparison loop of `Tensor.Equal`: compare positions
`i, i+1, ...` under the element type's equality for the given remaining
count, reading both slices (a read past a buffer's length is a Go
runtime panic).  The Go source is one such loop per precision, each
using `!=` at its own element type. -/
def eqLoop (eq : Nat → Nat → Bool) (v o : List Nat) :
    Nat → Nat → Except Err Bool
  | _, 0 => .ok true
  | i, n + 1 =>
    match v.get? i, o.get? i with
    | some a, some b => if eq a b then eqLoop eq v o (i + 1) n else .ok false
    | _, _ => .error .runtime

/-- The function `Tensor.Equal`: shape equality (which can itself panic), then tag
equality, then element-for-element comparison of the two buffers up to
the first tensor's `shape.Len()`, under each precision's `==`. -/
def Tensor.Equal (ts other : Tensor) : Except Err Bool :=
  match Shape.Equal ts.shape other.shape with
  | none => .error .runtime
  | some false => .ok false
  | some true =>
    if ts.typ ≠ other.typ then .ok false
    else
      match ts.typ, ts.data, other.data with
      | .f16, .f16 v, .f16 o => eqLoop f16eq v o 0 (Shape.Len ts.shape).toNat
      | .f32, .f32 v, .f32 o => eqLoop f32eq v o 0 (Shape.Len ts.shape).toNat
      | .f64, .f64 v, .f64 o => eqLoop f64eq v o 0 (Shape.Len ts.shape).toNat
      | _, _, _ => .error .runtime

/-- A one-element float64 tensor holding a quiet NaN pattern. -/
def tNaN : Tensor := ⟨1, .f64 [0x7FF8000000000000], [1], .f64, [1]⟩

/-- A one-element float64 tensor holding positive zero. -/
def tZp : Tensor := ⟨1, .f64 [0], [1], .f64, [1]⟩

/-- A one-element float64 tensor holding negative zero. -/
def tZn : Tensor := ⟨1, .f64 [0x8000000000000000], [1], .f64, [1]⟩

/-- Recursive renderer of `Tensor.String`, parameterized by the element
formatter (`fmt.Sprintf("%v", ·)` in Go, which lives outside this
repository).  The fuel only makes the recursion over the axis depth `d`
structural; the caller passes the rank, which is never exhausted since
`d` grows toward the last axis. -/
def toStrAux (ts : Tensor) (render : Val → String) :
    Nat → Nat → List Int → Except Err String
  | 0, _, _ => .error .runtime
  | fuel + 1, d, index =>
    if (d : Int) = Shape.Dim ts.shape - 1 then
      match ts.shape.get? d with
      | none => .error .runtime
      | some sz => do
        let s ← (List.range (sz - 1).toNat).foldlM
          (fun (s : String) i => do
            let v ← ts.get (index.set d (i : Int))
            pure (s ++ render v ++ ", "))
          "["
        if 0 < sz - 1 then
          let v ← ts.get (index.set d (sz - 1))
          pure (s ++ render v ++ "]")
        else pure (s ++ "]")
    else
      match ts.shape.get? d with
      | none => .error .runtime
      | some sz => do
        let s ← (List.range (sz - 1).toNat).foldlM
          (fun (s : String) i => do
            let sub ← toStrAux ts render fuel (d + 1) (index.set d (i : Int))
            pure (s ++ sub ++ ", "))
          "["
        if 0 < sz - 1 then
          let sub ← toStrAux ts render fuel (d + 1) (index.set d (sz - 1))
          pure (s ++ sub ++ "]")
        else pure (s ++ "]")

/-- The function `Tensor.String`: bracketed nested-list rendering, outermost axis
first, elements rendered by `render`. -/
def Tensor.toString (ts : Tensor) (render : Val → String) :
    Except Err String :=
  toStrAux ts render ts.shape.length 0 (List.replicate ts.shape.length 0)

/-- A 2×2 float64 tensor (axis 0 fastest-varying). -/
def t4 : Tensor := ⟨2, .f64 [10, 11, 12, 13], [2, 2], .f64, [1, 2]⟩

/-- Shape `[6]` over six zero elements. -/
def tA : Tensor := ⟨1, .f64 [0, 0, 0, 0, 0, 0], [6], .f64, [1]⟩

/-- Shape `[6,1]` over the same six zero elements. -/
def tB : Tensor := ⟨2, .f64 [0, 0, 0, 0, 0, 0], [6, 1], .f64, [1, 6]⟩

/-- A tensor of shape `(1)` holding the value pattern 5. -/
def t10a : Tensor := ⟨1, .f64 [5], [1], .f64, [1]⟩

/-- A tensor of shape `(2,1)` holding the patterns 1 and 2. -/
def t10b : Tensor := ⟨2, .f64 [1, 2], [2, 1], .f64, [1, 2]⟩

/-- Flat source position read by iteration `j` of `GetSub`'s copy loop:
the destination offset `j` is decoded through the new tensor's strides
`st'`, merged with the key, and encoded through the source's strides. -/
def srcOff (ts : Tensor) (key st' : List Int) (j : Nat) : Nat :=
  ((offsetGo ts.strides (mergeKey key (digits (j : Int) st').1)).getD 0).toNat

/-- A trivial element formatter, used to instantiate the renderer
arguments. -/
def renderA : Val → String := fun _ => ""

/-- A second element formatter, different from `renderA` on every
value. -/
def renderB : Val → String := fun _ => "x"

/-! ## Basic facts about the shape operations -/
theorem len_cons (x : Int) (xs : List Int) :
    Shape.Len (x :: xs) = x * Shape.Len xs := by
  show List.foldl (· * ·) (1 * x) xs = x * List.foldl (· * ·) 1 xs
  rw [one_mul]
  induction xs generalizing x with
  | nil => simp [List.foldl]
  | cons y ys ih =>
    show List.foldl (· * ·) (x * y) ys = x * List.foldl (· * ·) (1 * y) ys
    rw [one_mul, ih, ih y, mul_assoc]

theorem len_pos {sh : Shape} (h : ∀ x ∈ sh, 0 < x) : 0 < Shape.Len sh := by
  induction sh with
  | nil => simp [Shape.Len, List.foldl]
  | cons x xs ih =>
    rw [len_cons]
    exact mul_pos (h x (by simp)) (ih fun y hy => h y (by simp [hy]))

theorem equalLoop_refl (sh : List Int) : equalLoop sh sh = some true := by
  induction sh with
  | nil => rfl
  | cons x xs ih => simp [equalLoop, ih]

/-- The function `equalLoop` returns `true` exactly when the first list is an initial
segment of the second. -/
theorem equalLoop_eq_true_iff (a b : List Int) :
    equalLoop a b = some true ↔ b.take a.length = a := by
  induction a generalizing b with
  | nil => simp [equalLoop]
  | cons x xs ih =>
    cases b with
    | nil => simp [equalLoop]
    | cons y ys =>
      by_cases hxy : x = y
      · subst hxy
        simp only [equalLoop, ne_eq, not_true_eq_false, if_neg,
          List.length_cons, List.take_succ_cons, List.cons.injEq, true_and]
        exact ih ys
      · simp [equalLoop, hxy, Ne.symm hxy]

/-- The function `equalLoop` panics (`none`) exactly when the second list is a proper
initial segment of the first. -/
theorem equalLoop_eq_none_iff (a b : List Int) :
    equalLoop a b = none ↔ b.length < a.length ∧ a.take b.length = b := by
  induction a generalizing b with
  | nil => simp [equalLoop]
  | cons x xs ih =>
    cases b with
    | nil => simp [equalLoop]
    | cons y ys =>
      by_cases hxy : x = y
      · subst hxy
        simp only [equalLoop, ne_eq, not_true_eq_false, if_neg,
          List.length_cons, Nat.add_lt_add_iff_right,
          List.take_succ_cons, List.cons.injEq, true_and]
        exact ih ys
      · simp [equalLoop, hxy, Ne.symm hxy]

theorem shape_equal_refl (sh : Shape) : Shape.Equal sh sh = some true := by
  simp [Shape.Equal, equalLoop_refl]

/-- Characterization of `Shape.Equal`'s `true` result: equal products and
the first shape an initial segment of the second. -/
theorem shape_equal_true_iff (a b : Shape) :
    Shape.Equal a b = some true ↔
      Shape.Len a = Shape.Len b ∧ b.take a.length = a := by
  unfold Shape.Equal
  by_cases h : Shape.Len a = Shape.Len b
  · simp [h, equalLoop_eq_true_iff]
  · simp [h]

theorem shape_equal_len {a b : Shape} (h : Shape.Equal a b = some true) :
    Shape.Len a = Shape.Len b := ((shape_equal_true_iff a b).mp h).1

/-! ## Claim C1: FF64 underflow branch -/
/-- C1.  For inputs with rebiased exponent `sexp ≤ 0` the claim requires an
all-zero exponent field and the mantissa truncated by `42 + (1 - sexp)`
bits.  The code instead truncates by `13 + (1 - sexp)` bits (the 32-bit
shift transplanted into the 64-bit encoder), so the input
`0x3F00000008000000` (source exponent 1008, hence `sexp = 0`, mantissa
bit 27 set) encodes to `0x2000`: exponent field 8, not 0, and not the
required mantissa `frac >>> 43 = 0`. -/
theorem ff64_underflow_shifts_13_not_42 :
    FF64 0x3F00000008000000 = 0x2000 ∧
      (FF64 0x3F00000008000000 >>> 10) &&& 0x1F ≠ 0 ∧
      ((0x3F00000008000000 : Nat) &&& 0xfffffffffffff) >>> 43 = 0 := by
  refine ⟨by decide, by decide, by decide⟩

/-! ## Claim C2: Shape.Equal -/
/-- C2 counterexample.  `Shape.Equal` is not rank-and-axes equality and it
can panic: shapes `[6]` and `[6,1]` (different rank) compare equal, and
comparing `[6,1]` with `[6]` reads past the second shape's bounds (a Go
runtime panic, `none`). -/
theorem shape_equal_c2_counterexample :
    Shape.Equal [6] [6, 1] = some true ∧
      ([6] : Shape).length ≠ ([6, 1] : Shape).length ∧
      Shape.Equal [6, 1] [6] = none := by
  refine ⟨by decide, by decide, by decide⟩

/-- C2 amended.  `Shape.Equal a b` returns `true` exactly when the two
shapes have equal products and `a` is an initial segment of `b`; it
panics exactly when the products are equal and `b` is a proper initial
segment of `a`; in every other case it returns `false`. -/
theorem shape_equal_characterization (a b : Shape) :
    (Shape.Equal a b = some true ↔
        Shape.Len a = Shape.Len b ∧ b.take a.length = a) ∧
      (Shape.Equal a b = none ↔
        Shape.Len a = Shape.Len b ∧ b.length < a.length ∧
          a.take b.length = b) := by
  constructor
  · exact shape_equal_true_iff a b
  · unfold Shape.Equal
    by_cases h : Shape.Len a = Shape.Len b
    · simp [h, equalLoop_eq_none_iff]
    · simp [h]

/-! ## Claim C9: StrideOf and Strides -/
theorem stridesAcc_get (sh : List Int) :
    ∀ (a : Int) (n : Nat), n < sh.length →
      (stridesAcc a sh).get? n = some (a * specProdBefore sh n) := by
  induction sh with
  | nil => intro a n h; simp at h
  | cons x xs ih =>
    intro a n h
    cases n with
    | zero => simp [stridesAcc, specProdBefore]
    | succ n =>
      have hn : n < xs.length := by simpa using h
      have := ih (a * x) n hn
      simp only [stridesAcc, List.get?_cons_succ, this]
      have hpb : specProdBefore (x :: xs) (n + 1) = x * specProdBefore xs n := by
        show Shape.Len ((x :: xs).take (n + 1)) = x * Shape.Len (xs.take n)
        rw [List.take_succ_cons, len_cons]
      rw [hpb, mul_assoc]

/-- C9 counterexample.  On shape `[2,3]` with axis 1 the source's
`StrideOf` returns 3 (it ignores its argument and always multiplies the
sizes after axis 0), while the spec's "product of all axis sizes strictly
after the axis" is 1 and the derived stride `Strides()[1]` is 2; the
three values the claim equates are pairwise different. -/
theorem strideof_c9_counterexample :
    Shape.StrideOf [2, 3] 1 = 3 ∧ specProdAfter [2, 3] 1 = 1 ∧
      Shape.Strides [2, 3] = some [1, 2] ∧
      Shape.StrideOf [2, 3] 1 ≠ specProdAfter [2, 3] 1 ∧
      Shape.StrideOf [2, 3] 1 ≠ 2 := by
  refine ⟨by decide, by decide, by decide, by decide, by decide⟩

/-- C9 amended.  `StrideOf(dim)` equals the product of all axis sizes
strictly after axis 0, for every `dim`; and the derived stride
`Strides()[axis]` equals the product of all axis sizes strictly *before*
`axis` (axis 0 is the fastest-varying axis in this layout). -/
theorem strideof_strides_characterization (sh : Shape) (dim : Int)
    (axis : Nat) (h : axis < sh.length) :
    Shape.StrideOf sh dim = specProdAfter sh 0 ∧
      Shape.Strides sh = some (stridesAcc 1 sh) ∧
      (stridesAcc 1 sh).get? axis = some (specProdBefore sh axis) := by
  refine ⟨rfl, ?_, ?_⟩
  · cases sh with
    | nil => simp at h
    | cons x xs => rfl
  · have := stridesAcc_get sh 1 axis h
    simpa using this

theorem strideof_strides_characterization_witness :
    (1 : Nat) < ([2, 3] : Shape).length ∧
      Shape.StrideOf [2, 3] 0 = specProdAfter [2, 3] 0 ∧
      Shape.Strides [2, 3] = some (stridesAcc 1 [2, 3]) ∧
      (stridesAcc 1 [2, 3]).get? 1 = some (specProdBefore [2, 3] 1) :=
  ⟨by decide, strideof_strides_characterization [2, 3] 0 1 (by decide)⟩

/-! ## Buffer access lemmas -/
theorem checkAxes_ok {sh : Shape} (h : ∀ x ∈ sh, 0 < x) :
    checkAxes sh = .ok () := by
  induction sh with
  | nil => rfl
  | cons x xs ih =>
    have hx : ¬x ≤ 0 := not_le.mpr (h x (by simp))
    simp only [checkAxes, if_neg hx]
    exact ih fun y hy => h y (by simp [hy])

theorem buf_read_ok (b : Buf) (off : Int) (h0 : 0 ≤ off)
    (hlt : off.toNat < b.list.length) :
    Buf.read b.ty b off = .ok (b.ty.val (b.list.get ⟨off.toNat, hlt⟩)) := by
  cases b <;>
  · simp only [Buf.read, Buf.ty, Buf.list, Ty.val] at hlt ⊢
    rw [dif_pos ⟨h0, hlt⟩]

theorem buf_read_oob (b : Buf) (off : Int)
    (h : ¬(0 ≤ off ∧ off.toNat < b.list.length)) :
    Buf.read b.ty b off = .error .runtime := by
  cases b <;> simp_all [Buf.read, Buf.ty, Buf.list]

theorem buf_write_ok (b : Buf) (off : Int) (x : Nat) (h0 : 0 ≤ off)
    (hlt : off.toNat < b.list.length) :
    ∃ b', Buf.write b.ty b off (b.ty.val x) = .ok b' ∧
      b'.ty = b.ty ∧ b'.list = b.list.set off.toNat x := by
  cases b with
  | f16 l =>
    refine ⟨.f16 (l.set off.toNat x), ?_, rfl, rfl⟩
    simp only [Buf.write, Buf.ty, Ty.val, Buf.list] at hlt ⊢
    rw [if_pos ⟨h0, hlt⟩]
  | f32 l =>
    refine ⟨.f32 (l.set off.toNat x), ?_, rfl, rfl⟩
    simp only [Buf.write, Buf.ty, Ty.val, Buf.list] at hlt ⊢
    rw [if_pos ⟨h0, hlt⟩]
  | f64 l =>
    refine ⟨.f64 (l.set off.toNat x), ?_, rfl, rfl⟩
    simp only [Buf.write, Buf.ty, Ty.val, Buf.list] at hlt ⊢
    rw [if_pos ⟨h0, hlt⟩]

theorem buf_write_oob (b : Buf) (off : Int) (v : Val) (hv : v.ty = b.ty)
    (h : ¬(0 ≤ off ∧ off.toNat < b.list.length)) :
    Buf.write b.ty b off v = .error .runtime := by
  cases b <;> cases v <;> simp_all [Buf.write, Buf.ty, Buf.list, Val.ty]

theorem val_of_ty (v : Val) : ∃ x, v = v.ty.val x := by
  cases v <;> exact ⟨_, rfl⟩

/-- C3 counterexample.  At the flat offset `shape.Len()` itself (here 2),
`GetAt` does not fail with `IndexOutOfRange` as the claim requires for
every `k ≥ shape.Len()`: the bounds check accepts it and the slice read
underneath fails with a Go runtime panic instead. -/
theorem getAt_c3_counterexample :
    Shape.Len t2.shape = 2 ∧
      Tensor.GetAt t2 2 ≠ .error .indexOutOfRange ∧
      Tensor.GetAt t2 2 = .error .runtime := by
  refine ⟨by decide, ?_, ?_⟩ <;> decide

/-- C3 amended.  `GetAt`/`SetAt` fail with `IndexOutOfRange` exactly when
`k < 0` or `k > shape.Len()` (not `k ≥ shape.Len()`); they succeed for
every `k ∈ [0, shape.Len())` (`SetAt` additionally requiring a value of
the tensor's precision); and at the off-by-one offset `k = shape.Len()`
the bounds check passes and the slice access fails with a runtime panic
instead. -/
theorem getAt_setAt_bounds (ts : Tensor) (k : Int) (v : Val)
    (hwf : ts.WF) (hv : v.ty = ts.typ) :
    (Tensor.GetAt ts k = .error .indexOutOfRange ↔
        (k < 0 ∨ Shape.Len ts.shape < k)) ∧
      ((0 ≤ k ∧ k < Shape.Len ts.shape) → ∃ w, Tensor.GetAt ts k = .ok w) ∧
      Tensor.GetAt ts (Shape.Len ts.shape) = .error .runtime ∧
      (Tensor.SetAt ts k v = .error .indexOutOfRange ↔
        (k < 0 ∨ Shape.Len ts.shape < k)) ∧
      ((0 ≤ k ∧ k < Shape.Len ts.shape) → ∃ t', Tensor.SetAt ts k v = .ok t') ∧
      Tensor.SetAt ts (Shape.Len ts.shape) v = .error .runtime := by
  obtain ⟨-, hpos, hty, hlen, -, -⟩ := hwf
  have hlenpos : 0 < Shape.Len ts.shape := len_pos hpos
  have hl : (ts.data.list.length : Int) = Shape.Len ts.shape := hlen
  have hinb : ∀ j : Int, 0 ≤ j → j < Shape.Len ts.shape →
      j.toNat < ts.data.list.length := by
    intro j hj hjl
    omega
  refine ⟨?_, ?_, ?_, ?_, ?_, ?_⟩
  · constructor
    · intro h
      by_contra hcon
      push_neg at hcon
      obtain ⟨h0, h1⟩ := hcon
      have hto : ¬(k < 0 ∨ Shape.Len ts.shape < k) := by omega
      simp only [Tensor.GetAt, Tensor.testOffset, if_neg hto, Tensor.at,
        bind, Except.bind] at h
      rcases lt_or_eq_of_le h1 with hlt | heq
      · rw [← hty, buf_read_ok ts.data k h0 (hinb k h0 hlt)] at h
        exact Except.noConfusion h
      · have : ¬(0 ≤ k ∧ k.toNat < ts.data.list.length) := by omega
        rw [← hty, buf_read_oob ts.data k this] at h
        exact (Err.noConfusion (Except.error.inj h))
    · intro h
      simp [Tensor.GetAt, Tensor.testOffset, if_pos h, bind, Except.bind]
  · rintro ⟨h0, h1⟩
    have hto : ¬(k < 0 ∨ Shape.Len ts.shape < k) := by omega
    refine ⟨ts.data.ty.val (ts.data.list.get ⟨k.toNat, hinb k h0 h1⟩), ?_⟩
    simp only [Tensor.GetAt, Tensor.testOffset, if_neg hto, Tensor.at,
      bind, Except.bind]
    rw [← hty]
    exact buf_read_ok ts.data k h0 (hinb k h0 h1)
  · have hto : ¬(Shape.Len ts.shape < 0 ∨
        Shape.Len ts.shape < Shape.Len ts.shape) := by omega
    simp only [Tensor.GetAt, Tensor.testOffset, if_neg hto, Tensor.at,
      bind, Except.bind]
    have : ¬(0 ≤ Shape.Len ts.shape ∧
        (Shape.Len ts.shape).toNat < ts.data.list.length) := by omega
    rw [← hty, buf_read_oob ts.data _ this]
  · constructor
    · intro h
      by_contra hcon
      push_neg at hcon
      obtain ⟨h0, h1⟩ := hcon
      have hto : ¬(k < 0 ∨ Shape.Len ts.shape < k) := by omega
      simp only [Tensor.SetAt, Tensor.testOffset, if_neg hto, Tensor.setAt,
        bind, Except.bind] at h
      rcases lt_or_eq_of_le h1 with hlt | heq
      · obtain ⟨x, hx⟩ := val_of_ty v
        rw [hv.trans hty.symm] at hx
        obtain ⟨b', hb', -, -⟩ :=
          buf_write_ok ts.data k x h0 (hinb k h0 hlt)
        rw [hx, ← hty, hb'] at h
        exact Except.noConfusion h
      · have hnb : ¬(0 ≤ k ∧ k.toNat < ts.data.list.length) := by omega
        rw [← hty, buf_write_oob ts.data k v (hv.trans hty.symm) hnb] at h
        exact (Err.noConfusion (Except.error.inj h))
    · intro h
      simp [Tensor.SetAt, Tensor.testOffset, if_pos h, bind, Except.bind]
  · rintro ⟨h0, h1⟩
    have hto : ¬(k < 0 ∨ Shape.Len ts.shape < k) := by omega
    obtain ⟨x, hx⟩ := val_of_ty v
    rw [hv.trans hty.symm] at hx
    obtain ⟨b', hb', -, -⟩ := buf_write_ok ts.data k x h0 (hinb k h0 h1)
    refine ⟨{ ts with data := b' }, ?_⟩
    simp only [Tensor.SetAt, Tensor.testOffset, if_neg hto, Tensor.setAt,
      bind, Except.bind]
    rw [hx, ← hty, hb']
    rfl
  · have hto : ¬(Shape.Len ts.shape < 0 ∨
        Shape.Len ts.shape < Shape.Len ts.shape) := by omega
    simp only [Tensor.SetAt, Tensor.testOffset, if_neg hto, Tensor.setAt,
      bind, Except.bind]
    have hnb : ¬(0 ≤ Shape.Len ts.shape ∧
        (Shape.Len ts.shape).toNat < ts.data.list.length) := by omega
    rw [← hty, buf_write_oob ts.data _ v (hv.trans hty.symm) hnb]
    rfl

theorem getAt_setAt_bounds_witness :
    t2.WF ∧ (Val.f64 9).ty = t2.typ ∧
      (Tensor.GetAt t2 1 = .error .indexOutOfRange ↔
        ((1 : Int) < 0 ∨ Shape.Len t2.shape < 1)) ∧
      (((0 : Int) ≤ 1 ∧ (1 : Int) < Shape.Len t2.shape) →
        ∃ w, Tensor.GetAt t2 1 = .ok w) ∧
      Tensor.GetAt t2 (Shape.Len t2.shape) = .error .runtime ∧
      (Tensor.SetAt t2 1 (Val.f64 9) = .error .indexOutOfRange ↔
        ((1 : Int) < 0 ∨ Shape.Len t2.shape < 1)) ∧
      (((0 : Int) ≤ 1 ∧ (1 : Int) < Shape.Len t2.shape) →
        ∃ t', Tensor.SetAt t2 1 (Val.f64 9) = .ok t') ∧
      Tensor.SetAt t2 (Shape.Len t2.shape) (Val.f64 9) = .error .runtime :=
  ⟨by decide, by decide, getAt_setAt_bounds t2 1 (Val.f64 9) (by decide) (by decide)⟩

theorem f32to64_zero : f32to64 0 = 0 := by decide

theorem f64to32_zero : f64to32 0 = 0 := by decide

/-- The function `NewTensor` with no supplied buffer over a nonempty all-positive
shape: the allocation (with the source's swapped `Float32`/`Float64`
arms) followed by the precision-reconciliation step produces a
zero-filled buffer of the requested precision. -/
theorem newTensor_none (typ : Ty) (sh : Shape) (hne : sh ≠ [])
    (hpos : ∀ x ∈ sh, 0 < x) :
    NewTensor none typ sh =
      .ok ⟨sh.length, zeroBuf typ (Shape.Len sh).toNat, sh, typ,
        stridesAcc 1 sh⟩ := by
  have hlen : ((List.replicate (Shape.Len sh).toNat (0 : Nat)).length : Int) =
      Shape.Len sh := by
    rw [List.length_replicate]
    exact Int.toNat_of_nonneg (le_of_lt (len_pos hpos))
  have hst : Shape.Strides sh = some (stridesAcc 1 sh) := by
    cases sh with
    | nil => exact absurd rfl hne
    | cons x xs => rfl
  have htn : (((Shape.Len sh).toNat : Nat) : Int) = Shape.Len sh :=
    Int.toNat_of_nonneg (le_of_lt (len_pos hpos))
  cases typ <;>
    simp [NewTensor, checkAxes_ok hpos, bind, Except.bind, htn, hst,
      zeroBuf, List.map_replicate, f64to32_zero, f32to64_zero]

/-- C4 counterexample.  The rank-0 shape has (vacuously) all axis sizes
positive, yet constructing a tensor over it does not yield a tensor: the
stride derivation writes `strides[0]` into a zero-length slice, a Go
runtime panic. -/
theorem newTensor_c4_counterexample :
    (∀ x ∈ ([] : Shape), 0 < x) ∧
      NewTensor none .f64 ([] : Shape) = .error .runtime := by
  refine ⟨by decide, by decide⟩

/-- C4 amended.  For every precision and every *nonempty* shape with all
axis sizes positive, constructing a tensor with no supplied buffer yields
a buffer of the requested precision with exactly `shape.Len()` elements,
all equal to that precision's zero value. -/
theorem newTensor_zero_filled (typ : Ty) (sh : Shape) (hne : sh ≠ [])
    (hpos : ∀ x ∈ sh, 0 < x) :
    ∃ t, NewTensor none typ sh = .ok t ∧ t.data.ty = typ ∧
      (t.data.list.length : Int) = Shape.Len sh ∧
      ∀ x ∈ t.data.list, x = 0 := by
  refine ⟨_, newTensor_none typ sh hne hpos, ?_, ?_, ?_⟩
  · cases typ <;> rfl
  · cases typ <;>
      simp [zeroBuf, Buf.list, Int.toNat_of_nonneg (le_of_lt (len_pos hpos))]
  · cases typ <;>
      · intro x hx
        simp only [zeroBuf, Buf.list] at hx
        exact List.eq_of_mem_replicate hx

theorem newTensor_zero_filled_witness :
    ([2, 3] : Shape) ≠ [] ∧ (∀ x ∈ ([2, 3] : Shape), 0 < x) ∧
      ∃ t, NewTensor none .f64 ([2, 3] : Shape) = .ok t ∧
        t.data.ty = .f64 ∧
        (t.data.list.length : Int) = Shape.Len [2, 3] ∧
        ∀ x ∈ t.data.list, x = 0 :=
  ⟨by decide, by decide, newTensor_zero_filled .f64 [2, 3] (by decide) (by decide)⟩

/-- C6 counterexample.  Reshaping to the rank-0 shape — which has
(vacuously) positive axis sizes and total length 1, equal to the buffer
length — does not succeed: the stride recomputation panics on the
zero-length stride slice. -/
theorem reshape_c6_counterexample :
    (∀ x ∈ ([] : Shape), 0 < x) ∧
      Shape.Len ([] : Shape) = (t3.data.list.length : Int) ∧
      Tensor.Reshape t3 ([] : Shape) = .error .runtime := by
  refine ⟨by decide, by decide, by decide⟩

/-- C6 amended.  For every well-formed tensor and every *nonempty* shape
with positive axis sizes whose total length matches the buffer length,
`Reshape` succeeds, leaves the buffer and the precision tag untouched,
and preserves `GetAt(k)` for every flat offset `k`. -/
theorem reshape_preserves_getAt (ts : Tensor) (sh : Shape) (hwf : ts.WF)
    (hne : sh ≠ []) (hpos : ∀ x ∈ sh, 0 < x)
    (hlen : Shape.Len sh = (ts.data.list.length : Int)) :
    ∃ t', Tensor.Reshape ts sh = .ok t' ∧ t'.data = ts.data ∧
      t'.typ = ts.typ ∧ t'.shape = sh ∧ t'.rank = sh.length ∧
      ∀ k, Tensor.GetAt t' k = Tensor.GetAt ts k := by
  obtain ⟨-, -, hty, hblen, -, -⟩ := hwf
  have hst : Shape.Strides sh = some (stridesAcc 1 sh) := by
    cases sh with
    | nil => exact absurd rfl hne
    | cons x xs => rfl
  have hdl : (ts.data.list.length : Int) = Shape.Len sh := hlen.symm
  have hchk : lenCheck ts.typ ts.data (Shape.Len sh) = .ok () := by
    cases hd : ts.data with
    | f16 v =>
      have h1 : ts.typ = .f16 := by rw [← hty, hd]; rfl
      have h2 : (v.length : Int) = Shape.Len sh := by rw [← hdl, hd]; rfl
      rw [h1]
      simp [lenCheck, h2]
    | f32 v =>
      have h1 : ts.typ = .f32 := by rw [← hty, hd]; rfl
      have h2 : (v.length : Int) = Shape.Len sh := by rw [← hdl, hd]; rfl
      rw [h1]
      simp [lenCheck, h2]
    | f64 v =>
      have h1 : ts.typ = .f64 := by rw [← hty, hd]; rfl
      have h2 : (v.length : Int) = Shape.Len sh := by rw [← hdl, hd]; rfl
      rw [h1]
      simp [lenCheck, h2]
  refine ⟨⟨sh.length, ts.data, sh, ts.typ, stridesAcc 1 sh⟩, ?_, rfl, rfl,
    rfl, rfl, ?_⟩
  · simp only [Tensor.Reshape, checkAxes_ok hpos, bind, Except.bind, hchk,
      hst]
  · intro k
    have hLen : Shape.Len sh = Shape.Len ts.shape := by
      rw [hlen, hblen]
    simp only [Tensor.GetAt, Tensor.testOffset, Tensor.at, bind,
      Except.bind, hLen]

/-! ## Mixed-radix facts about `digits` and `offsetGo` -/
theorem stridesAcc_scale (c : Int) (xs : List Int) :
    ∀ a, stridesAcc (c * a) xs = (stridesAcc a xs).map (c * ·) := by
  induction xs with
  | nil => intro a; rfl
  | cons x xs ih =>
    intro a
    show (c * a) :: stridesAcc (c * a * x) xs =
      (c * a) :: (stridesAcc (a * x) xs).map (c * ·)
    rw [mul_assoc, ih (a * x)]

theorem stridesAcc_cons (s : Int) (rest : List Int) :
    stridesAcc 1 (s :: rest) =
      1 :: (stridesAcc 1 rest).map (s * ·) := by
  show 1 :: stridesAcc (1 * s) rest = _
  rw [one_mul, show (s : Int) = s * 1 by ring, stridesAcc_scale]
  ring_nf

theorem stridesAcc_pos {sh : List Int} (hpos : ∀ x ∈ sh, 0 < x) :
    ∀ {a : Int}, 0 < a → ∀ y ∈ stridesAcc a sh, 0 < y := by
  induction sh with
  | nil => intro a _ y hy; simp [stridesAcc] at hy
  | cons x xs ih =>
    intro a ha y hy
    simp only [stridesAcc, List.mem_cons] at hy
    rcases hy with rfl | hy
    · exact ha
    · exact ih (fun z hz => hpos z (by simp [hz]))
        (mul_pos ha (hpos x (by simp))) y hy

theorem offsetGo_map_scale (c : Int) (st idx : List Int) :
    offsetGo (st.map (c * ·)) idx = (offsetGo st idx).map (c * ·) := by
  induction st generalizing idx with
  | nil =>
    cases idx with
    | nil => simp [offsetGo]
    | cons i is_ => simp [offsetGo]
  | cons s ss ih =>
    cases idx with
    | nil => simp [offsetGo]
    | cons i is_ =>
      simp only [List.map_cons, offsetGo, ih]
      cases offsetGo ss is_ with
      | none => rfl
      | some o => simp [Option.map_some']; ring

theorem digits_nonneg (st : List Int) (hpos : ∀ s ∈ st, 0 < s) (k : Int)
    (hk : 0 ≤ k) :
    0 ≤ (digits k st).2 ∧ ∀ d ∈ (digits k st).1, 0 ≤ d := by
  induction st with
  | nil => simpa [digits] using hk
  | cons s ss ih =>
    obtain ⟨h2, h1⟩ := ih fun t ht => hpos t (by simp [ht])
    cases h : digits k ss with
    | mk ds off2 =>
      rw [h] at h2 h1
      constructor
      · simp only [digits, h]
        exact Int.tmod_nonneg _ h2
      · intro d hd
        simp only [digits, h, List.mem_cons] at hd
        rcases hd with rfl | hd
        · exact Int.tdiv_nonneg h2 (hpos s (by simp)).le
        · exact h1 d hd

theorem ediv_emod_eq {a b q r : Int} (hb : 0 < b) (hr : 0 ≤ r)
    (hrb : r < b) (h : a = b * q + r) : a / b = q ∧ a % b = r := by
  subst h
  constructor
  · rw [add_comm, Int.add_mul_ediv_left r q hb.ne',
      Int.ediv_eq_zero_of_lt hr hrb, zero_add]
  · rw [add_comm, Int.add_mul_emod_self_left, Int.emod_eq_of_lt hr hrb]

theorem digits_map_scale (c : Int) (hc : 0 < c) (st : List Int)
    (hpos : ∀ s ∈ st, 0 < s) (k : Int) (hk : 0 ≤ k) :
    digits k (st.map (c * ·)) =
      ((digits (k.tdiv c) st).1,
        c * (digits (k.tdiv c) st).2 + k.tmod c) := by
  induction st with
  | nil =>
    simp only [List.map_nil, digits]
    exact Prod.ext rfl (Int.tdiv_add_tmod k c).symm
  | cons t ts ih =>
    have hts : ∀ s ∈ ts, 0 < s := fun s hs => hpos s (by simp [hs])
    have ht : 0 < t := hpos t (by simp)
    have hkd0 : 0 ≤ k.tdiv c := Int.tdiv_nonneg hk hc.le
    cases hq : digits (k.tdiv c) ts with
    | mk ds q =>
      have hq0 : 0 ≤ q := by
        have := (digits_nonneg ts hts _ hkd0).1
        rwa [hq] at this
      have hr0 : 0 ≤ k.tmod c := Int.tmod_nonneg _ hk
      have hrc : k.tmod c < c := by
        rw [Int.tmod_eq_emod hk hc.le]
        exact Int.emod_lt_of_pos k hc
      have hqm0 : 0 ≤ q.tmod t := Int.tmod_nonneg _ hq0
      have hqmt : q.tmod t < t := by
        rw [Int.tmod_eq_emod hq0 ht.le]
        exact Int.emod_lt_of_pos q ht
      have key : c * q + k.tmod c =
          (c * t) * (q.tdiv t) + (c * (q.tmod t) + k.tmod c) := by
        have hqd := Int.tdiv_add_tmod q t
        linear_combination c * hqd.symm
      have hmr0 : 0 ≤ c * (q.tmod t) + k.tmod c :=
        add_nonneg (mul_nonneg hc.le hqm0) hr0
      have hmrb : c * (q.tmod t) + k.tmod c < c * t := by
        have h1 : c * (q.tmod t) ≤ c * (t - 1) :=
          mul_le_mul_of_nonneg_left (by omega) hc.le
        nlinarith
      have hct : 0 < c * t := mul_pos hc ht
      have ha0 : 0 ≤ c * q + k.tmod c :=
        add_nonneg (mul_nonneg hc.le hq0) hr0
      obtain ⟨he1, he2⟩ := ediv_emod_eq hct hmr0 hmrb key
      have e1 : (c * q + k.tmod c).tdiv (c * t) = q.tdiv t := by
        rw [Int.tdiv_eq_ediv ha0 hct.le]
        exact he1
      have e2 : (c * q + k.tmod c).tmod (c * t) =
          c * (q.tmod t) + k.tmod c := by
        rw [Int.tmod_eq_emod ha0 hct.le]
        exact he2
      simp only [List.map_cons, digits, ih hts, hq, e1, e2]

theorem offsetGo_digits (st : List Int) (k : Int) :
    offsetGo st (digits k st).1 = some (k - (digits k st).2) := by
  induction st generalizing k with
  | nil => simp [digits, offsetGo]
  | cons s ss ih =>
    cases h : digits k ss with
    | mk ds off2 =>
      have hih := ih k
      rw [h] at hih
      simp only [digits, h, offsetGo, hih, Option.map_some']
      have hid := Int.tdiv_add_tmod off2 s
      congr 1
      linarith

theorem digits_head_one (k : Int) (ss : List Int) :
    (digits k (1 :: ss)).2 = 0 := by
  cases h : digits k ss with
  | mk ds off2 => simp [digits, h, Int.tmod_one]

/-- Digit bounds: for an in-range offset every extracted digit lies
inside its axis, and the final remainder is zero. -/
theorem digits_bounds (sh : List Int) (hpos : ∀ x ∈ sh, 0 < x) (k : Int)
    (hk0 : 0 ≤ k) (hkL : k < Shape.Len sh) :
    List.Forall₂ (fun d s => 0 ≤ d ∧ d < s)
        (digits k (stridesAcc 1 sh)).1 sh ∧
      (digits k (stridesAcc 1 sh)).2 = 0 := by
  induction sh generalizing k with
  | nil =>
    have : k = 0 := by
      simp only [Shape.Len, List.foldl] at hkL
      omega
    subst this
    exact ⟨List.Forall₂.nil, rfl⟩
  | cons s rest ih =>
    have hs : 0 < s := hpos s (by simp)
    have hrest : ∀ x ∈ rest, 0 < x := fun y hy => hpos y (by simp [hy])
    have hstpos : ∀ x ∈ stridesAcc 1 rest, 0 < x :=
      stridesAcc_pos hrest one_pos
    have hkd0 : 0 ≤ k.tdiv s := Int.tdiv_nonneg hk0 hs.le
    have hkdL : k.tdiv s < Shape.Len rest := by
      rw [Int.tdiv_eq_ediv hk0 hs.le]
      rw [len_cons] at hkL
      exact (Int.ediv_lt_iff_lt_mul hs).mpr (by linarith [hkL])
    obtain ⟨ihf, ihr⟩ := ih hrest (k.tdiv s) hkd0 hkdL
    have hsc := digits_map_scale s hs (stridesAcc 1 rest) hstpos k hk0
    rw [stridesAcc_cons]
    cases hmap : digits k ((stridesAcc 1 rest).map (s * ·)) with
    | mk ds off2 =>
      rw [hmap] at hsc
      obtain ⟨hds, hoff2⟩ := Prod.mk.injEq .. ▸ hsc
      have hoff2' : off2 = k.tmod s := by rw [hoff2, ihr, mul_zero, zero_add]
      have hr0 : 0 ≤ k.tmod s := Int.tmod_nonneg _ hk0
      have hrs : k.tmod s < s := by
        rw [Int.tmod_eq_emod hk0 hs.le]
        exact Int.emod_lt_of_pos k hs
      constructor
      · simp only [digits, hmap]
        refine List.Forall₂.cons ?_ ?_
        · rw [Int.tdiv_one, hoff2']
          exact ⟨hr0, hrs⟩
        · rw [hds]
          exact ihf
      · simp only [digits, hmap, Int.tmod_one]

/-- Encoding a valid multi-index gives an in-range offset that decodes
back to the same index. -/
theorem offset_of_valid (sh : List Int) (hpos : ∀ x ∈ sh, 0 < x) :
    ∀ idx, List.Forall₂ (fun d s => 0 ≤ d ∧ d < s) idx sh →
      ∃ e, offsetGo (stridesAcc 1 sh) idx = some e ∧ 0 ≤ e ∧
        e < Shape.Len sh ∧ digits e (stridesAcc 1 sh) = (idx, 0) := by
  induction sh with
  | nil =>
    intro idx hval
    cases hval
    refine ⟨0, rfl, le_refl 0, ?_, rfl⟩
    simp [Shape.Len, List.foldl]
  | cons s rest ih =>
    intro idx hval
    cases hval with
    | cons hpair hval' =>
      rename_i i is_
      have hs : 0 < s := hpos s (by simp)
      have hrest : ∀ x ∈ rest, 0 < x := fun y hy => hpos y (by simp [hy])
      have hstpos : ∀ x ∈ stridesAcc 1 rest, 0 < x :=
        stridesAcc_pos hrest one_pos
      obtain ⟨R, hR, hR0, hRL, hRd⟩ := ih hrest is_ hval'
      obtain ⟨hi0, his⟩ := hpair
      refine ⟨i + s * R, ?_, ?_, ?_, ?_⟩
      · rw [stridesAcc_cons]
        simp only [offsetGo, offsetGo_map_scale, hR, Option.map_some']
        congr 1
        ring
      · exact add_nonneg hi0 (mul_nonneg hs.le hR0)
      · rw [len_cons]
        nlinarith
      · rw [stridesAcc_cons]
        have h0 : 0 ≤ i + s * R := add_nonneg hi0 (mul_nonneg hs.le hR0)
        have hsc := digits_map_scale s hs (stridesAcc 1 rest) hstpos
          (i + s * R) h0
        have hdm : (i + s * R).tdiv s = R ∧ (i + s * R).tmod s = i := by
          have key : i + s * R = s * R + i := by ring
          obtain ⟨he1, he2⟩ := ediv_emod_eq hs hi0 his key
          constructor
          · rw [Int.tdiv_eq_ediv h0 hs.le]
            exact he1
          · rw [Int.tmod_eq_emod h0 hs.le]
            exact he2
        rw [hdm.1, hdm.2, hRd] at hsc
        cases hmap : digits (i + s * R) ((stridesAcc 1 rest).map (s * ·)) with
        | mk ds off2 =>
          rw [hmap] at hsc
          obtain ⟨hds, hoff2⟩ := Prod.mk.injEq .. ▸ hsc
          simp only [digits, hmap]
          rw [hds, hoff2, mul_zero, zero_add, Int.tdiv_one, Int.tmod_one]

/-! ## Validation and access helpers -/
theorem wf_strides {ts : Tensor} (hwf : ts.WF) :
    ts.strides = stridesAcc 1 ts.shape := by
  obtain ⟨hne, -, -, -, hst, -⟩ := hwf
  cases hsh : ts.shape with
  | nil => exact absurd hsh hne
  | cons x xs =>
    rw [hsh] at hst
    simp only [Shape.Strides] at hst
    exact (Option.some.inj hst).symm

theorem testIndexLoop_ok (low : Int) (idx sh : List Int)
    (h : List.Forall₂ (fun d s => low ≤ d ∧ d < s) idx sh) :
    testIndexLoop low idx sh = .ok () := by
  induction h with
  | nil => rfl
  | cons hpair h ih =>
    obtain ⟨h1, h2⟩ := hpair
    simp only [testIndexLoop]
    rw [if_neg (by omega)]
    exact ih

theorem testIndex_ok (ts : Tensor) (idx : List Int)
    (h : List.Forall₂ (fun d s => 0 ≤ d ∧ d < s) idx ts.shape) :
    ts.testIndex idx = .ok () := by
  unfold Tensor.testIndex
  rw [if_neg (by simp [h.length_eq])]
  exact testIndexLoop_ok 0 idx ts.shape h

theorem keyOk_bounds : ∀ (key sh : List Int),
    List.Forall₂ (fun k s => k = -1 ∨ (0 ≤ k ∧ k < s)) key sh →
    (∀ x ∈ sh, 0 < x) →
    List.Forall₂ (fun k s => (-1 : Int) ≤ k ∧ k < s) key sh := by
  intro key
  induction key with
  | nil => intro sh h _; cases h; exact .nil
  | cons k ks ih =>
    intro sh h hpos
    cases h with
    | cons hp h' =>
      rename_i s ss
      have hs : 0 < s := hpos s (by simp)
      refine .cons (by rcases hp with rfl | ⟨h1, h2⟩ <;> omega)
        (ih ss h' fun y hy => hpos y (by simp [hy]))

theorem testKey_ok (ts : Tensor) (key : List Int)
    (h : List.Forall₂ (fun k s => k = -1 ∨ (0 ≤ k ∧ k < s)) key ts.shape)
    (hpos : ∀ x ∈ ts.shape, 0 < x) :
    ts.testKey key = .ok () := by
  unfold Tensor.testKey
  rw [if_neg (by simp [h.length_eq])]
  exact testIndexLoop_ok (-1) key ts.shape (keyOk_bounds key ts.shape h hpos)

theorem subShape_pos : ∀ (key sh : List Int),
    List.Forall₂ (fun k s => k = -1 ∨ (0 ≤ k ∧ k < s)) key sh →
    (∀ x ∈ sh, 0 < x) → ∀ x ∈ subShape key sh, 0 < x := by
  intro key
  induction key with
  | nil => intro sh h _ x hx; cases h; simp [subShape] at hx
  | cons k ks ih =>
    intro sh h hpos x hx
    cases h with
    | cons hp h' =>
      rename_i s ss
      have hs : 0 < s := hpos s (by simp)
      simp only [subShape, List.zipWith_cons_cons, List.mem_cons] at hx
      rcases hx with rfl | hx
      · split <;> omega
      · exact ih ss h' (fun y hy => hpos y (by simp [hy])) x hx

theorem mergeKey_valid : ∀ (key sh dst : List Int),
    List.Forall₂ (fun k s => k = -1 ∨ (0 ≤ k ∧ k < s)) key sh →
    List.Forall₂ (fun d s => 0 ≤ d ∧ d < s) dst (subShape key sh) →
    List.Forall₂ (fun d s => 0 ≤ d ∧ d < s) (mergeKey key dst) sh := by
  intro key
  induction key with
  | nil =>
    intro sh dst h1 h2
    cases h1
    simp only [subShape, List.zipWith_nil_left] at h2
    cases h2
    exact .nil
  | cons k ks ih =>
    intro sh dst h1 h2
    cases h1 with
    | cons hp h1' =>
      rename_i s ss
      simp only [subShape, List.zipWith_cons_cons] at h2
      cases h2 with
      | cons hd h2' =>
        rename_i d ds
        simp only [mergeKey, List.zipWith_cons_cons]
        refine .cons ?_ (ih ss ds h1' h2')
        by_cases hk : k = -1
        · simp only [hk, ne_eq, not_true_eq_false, if_neg,
            not_false_eq_true, ite_eq_right_iff, if_false]
          simp only [hk, if_pos] at hd
          simpa using hd
        · simp only [ne_eq, hk, not_false_eq_true, if_true, if_pos]
          simp only [if_neg hk] at hd
          rcases hp with rfl | ⟨h1, h2⟩
          · exact absurd rfl hk
          · exact ⟨h1, h2⟩

/-- A well-formed tensor's unchecked `get` at a valid multi-index: the
offset is in range and the read returns the buffer element there. -/
theorem tensor_get_ok (ts : Tensor) (idx : List Int)
    (hty : ts.data.ty = ts.typ)
    (hstr : ts.strides = stridesAcc 1 ts.shape)
    (hlen : (ts.data.list.length : Int) = Shape.Len ts.shape)
    (hpos : ∀ x ∈ ts.shape, 0 < x)
    (hval : List.Forall₂ (fun d s => 0 ≤ d ∧ d < s) idx ts.shape) :
    ∃ e : Int, offsetGo ts.strides idx = some e ∧ 0 ≤ e ∧
      e < Shape.Len ts.shape ∧
      ts.get idx = .ok (ts.typ.val (ts.data.list.getD e.toNat 0)) ∧
      ts.data.list.get? e.toNat = some (ts.data.list.getD e.toNat 0) := by
  obtain ⟨e, he, he0, heL, hdig⟩ := offset_of_valid ts.shape hpos idx hval
  have hoff : offsetGo ts.strides idx = some e := by rw [hstr]; exact he
  have hbound : e.toNat < ts.data.list.length := by omega
  have hgd : ts.data.list.getD e.toNat 0 =
      ts.data.list.get ⟨e.toNat, hbound⟩ := by
    rw [List.getD_eq_get?, List.get?_eq_get hbound]
    rfl
  refine ⟨e, hoff, he0, heL, ?_, ?_⟩
  · unfold Tensor.get
    rw [hoff, ← hty]
    show Buf.read ts.data.ty ts.data e =
      .ok (ts.data.ty.val (ts.data.list.getD e.toNat 0))
    rw [buf_read_ok ts.data e he0 hbound, hgd]
  · rw [List.get?_eq_get hbound, hgd]

/-! ## Claim C5: flat offset / multi-index round trip -/
/-- C5.  For every well-formed tensor and every in-range flat offset
`k`, decoding `k` into a multi-index through the strides and re-encoding
it through the stride dot product returns `k` exactly. -/
theorem offset_index_roundtrip (ts : Tensor) (k : Int) (hwf : ts.WF)
    (hk0 : 0 ≤ k) (hkL : k < Shape.Len ts.shape) :
    Tensor.offset ts (Tensor.index ts k) = some k := by
  obtain ⟨hne, hpos, -, -, hst, -⟩ := hwf
  have hstr : ts.strides = stridesAcc 1 ts.shape := by
    cases hsh : ts.shape with
    | nil => exact absurd hsh hne
    | cons x xs =>
      rw [hsh] at hst
      simp only [Shape.Strides] at hst
      exact (Option.some.inj hst).symm
  have hhead : ∃ tl, stridesAcc 1 ts.shape = 1 :: tl := by
    cases hsh : ts.shape with
    | nil => exact absurd hsh hne
    | cons x xs => exact ⟨stridesAcc (1 * x) xs, rfl⟩
  obtain ⟨tl, htl⟩ := hhead
  unfold Tensor.offset Tensor.index
  rw [hstr, htl, offsetGo_digits, digits_head_one, sub_zero]

theorem offset_index_roundtrip_witness :
    t4.WF ∧ (0 : Int) ≤ 3 ∧ (3 : Int) < Shape.Len t4.shape ∧
      Tensor.offset t4 (Tensor.index t4 3) = some 3 :=
  ⟨by decide, by decide, by decide,
    offset_index_roundtrip t4 3 (by decide) (by decide) (by decide)⟩

theorem zeroBuf_ty (typ : Ty) (n : Nat) : (zeroBuf typ n).ty = typ := by
  cases typ <;> rfl

theorem zeroBuf_list (typ : Ty) (n : Nat) :
    (zeroBuf typ n).list = List.replicate n 0 := by
  cases typ <;> rfl

/-- Invariant of `GetSub`'s copy loop: after the iterations below `off`
every already-written cell `j` of the new buffer holds the source
element at `srcOff j`; running the remaining iterations completes the
copy. -/
theorem subLoop_spec (ts : Tensor) (key : List Int) (sh' : Shape)
    (hwf : ts.WF)
    (hkey : List.Forall₂ (fun k s => k = -1 ∨ (0 ≤ k ∧ k < s)) key ts.shape)
    (hsh' : sh' = subShape key ts.shape) :
    ∀ (n off : Nat) (t : Tensor),
      off + n = (Shape.Len sh').toNat →
      t.shape = sh' → t.strides = stridesAcc 1 sh' → t.typ = ts.typ →
      t.rank = sh'.length → t.data.ty = ts.typ →
      t.data.list.length = (Shape.Len sh').toNat →
      (∀ j : Nat, j < off →
        t.data.list.get? j =
          ts.data.list.get? (srcOff ts key (stridesAcc 1 sh') j)) →
      ∃ tfin, subLoop ts key t (off : Int) n = .ok tfin ∧
        tfin.shape = sh' ∧ tfin.strides = stridesAcc 1 sh' ∧
        tfin.typ = ts.typ ∧ tfin.rank = sh'.length ∧
        tfin.data.ty = ts.typ ∧
        tfin.data.list.length = (Shape.Len sh').toNat ∧
        ∀ j : Nat, j < (Shape.Len sh').toNat →
          tfin.data.list.get? j =
            ts.data.list.get? (srcOff ts key (stridesAcc 1 sh') j) := by
  have hstrS := wf_strides hwf
  obtain ⟨hne, hpos, htyS, hlenS, hstS, hrkS⟩ := hwf
  have hpos' : ∀ x ∈ sh', 0 < x := by
    rw [hsh']
    exact subShape_pos key ts.shape hkey hpos
  intro n
  induction n with
  | zero =>
    intro off t hsum h1 h2 h3 h4 h5 h6 h7
    exact ⟨t, rfl, h1, h2, h3, h4, h5, h6, fun j hj => h7 j (by omega)⟩
  | succ n ih =>
    intro off t hsum h1 h2 h3 h4 h5 h6 h7
    have hoffN : off < (Shape.Len sh').toNat := by omega
    have hoffL : (off : Int) < Shape.Len sh' := by omega
    have hoff0 : (0 : Int) ≤ (off : Int) := Int.natCast_nonneg off
    obtain ⟨hdstF, hdstR⟩ :=
      digits_bounds sh' hpos' (off : Int) hoff0 hoffL
    set dst := (digits (off : Int) (stridesAcc 1 sh')).1 with hdst
    have hsrcF : List.Forall₂ (fun d s => 0 ≤ d ∧ d < s)
        (mergeKey key dst) ts.shape := by
      apply mergeKey_valid key ts.shape dst hkey
      rw [← hsh']
      exact hdstF
    obtain ⟨e, he, he0, heL, hget, hgetq⟩ :=
      tensor_get_ok ts (mergeKey key dst) htyS hstrS hlenS hpos hsrcF
    have hsrcOff : srcOff ts key (stridesAcc 1 sh') off = e.toNat := by
      unfold srcOff
      rw [← hdst, he]
      rfl
    have hidx : t.index (off : Int) = dst := by
      unfold Tensor.index
      rw [h2]
    have hwoff : offsetGo t.strides dst = some (off : Int) := by
      rw [h2, hdst]
      have hrt := offsetGo_digits (stridesAcc 1 sh') (off : Int)
      rw [hdstR, sub_zero] at hrt
      exact hrt
    have hvt : ts.typ.val (ts.data.list.getD e.toNat 0) =
        t.data.ty.val (ts.data.list.getD e.toNat 0) := by rw [h5]
    have hbound' : ((off : Int)).toNat < t.data.list.length := by
      rw [h6]
      omega
    obtain ⟨b', hb', hb'ty, hb'list⟩ :=
      buf_write_ok t.data (off : Int) (ts.data.list.getD e.toNat 0)
        hoff0 hbound'
    have hset : t.set dst (ts.typ.val (ts.data.list.getD e.toNat 0)) =
        .ok { t with data := b' } := by
      unfold Tensor.set Tensor.setAt
      rw [hvt, show t.typ = t.data.ty from h3.trans h5.symm]
      simp only [hwoff]
      rw [hb']
      rfl
    have hstep : subLoop ts key t (off : Int) (n + 1) =
        subLoop ts key { t with data := b' } ((off : Int) + 1) n := by
      simp only [subLoop, hidx, hget, hset, bind, Except.bind]
    have h7' : ∀ j : Nat, j < off + 1 →
        ({ t with data := b' } : Tensor).data.list.get? j =
          ts.data.list.get? (srcOff ts key (stridesAcc 1 sh') j) := by
      intro j hj
      show b'.list.get? j = _
      rcases Nat.lt_or_ge j off with hlt | hge
      · rw [hb'list, List.get?_set_ne _ _ (by omega : ((off : Int)).toNat ≠ j)]
        exact h7 j hlt
      · have hj' : j = off := by omega
        have hcast : ((off : Int)).toNat = off := by omega
        rw [hj', hb'list, hcast, List.get?_set_eq, hsrcOff, hgetq]
        have hlt2 : off < t.data.list.length := by rw [h6]; omega
        rw [List.get?_eq_get hlt2]
        rfl
    obtain ⟨tfin, hrun, hc1, hc2, hc3, hc4, hc5, hc6, hc7⟩ :=
      ih (off + 1) { t with data := b' } (by omega) h1 h2 h3 h4
        (hb'ty.trans h5)
        (by show b'.list.length = _; rw [hb'list, List.length_set]; exact h6)
        h7'
    refine ⟨tfin, ?_, hc1, hc2, hc3, hc4, hc5, hc6, hc7⟩
    rw [hstep, show ((off : Int) + 1) = ((off + 1 : Nat) : Int) from by
      push_cast; ring]
    exact hrun

/-! ## Claim C7: GetSub -/
/-- C7.  For a well-formed tensor and an index key of matching length
whose concrete entries are in bounds, `GetSub` succeeds and returns a
tensor of the same precision and rank whose shape keeps the source size
on wildcard axes and is 1 on concrete axes, and whose element at every
valid multi-index equals the source element at the merged coordinate
(the result's own coordinate on wildcard axes, the key's fixed
coordinate on concrete axes).  The result's buffer is freshly allocated
by the nested `NewTensor` call. -/
theorem getSub_spec (ts : Tensor) (key : List Int) (hwf : ts.WF)
    (hkey : List.Forall₂ (fun k s => k = -1 ∨ (0 ≤ k ∧ k < s)) key
      ts.shape) :
    ∃ t', Tensor.GetSub ts key = .ok t' ∧ t'.typ = ts.typ ∧
      t'.rank = ts.rank ∧ t'.shape = subShape key ts.shape ∧
      ∀ ridx, List.Forall₂ (fun d s => 0 ≤ d ∧ d < s) ridx t'.shape →
        ∃ w, Tensor.Get t' ridx = .ok w ∧
          Tensor.Get ts (mergeKey key ridx) = .ok w := by
  have hstrS := wf_strides hwf
  have hwf' := hwf
  obtain ⟨hne, hpos, htyS, hlenS, hstS, hrkS⟩ := hwf'
  set sh' := subShape key ts.shape with hsh'
  have hlensh : sh'.length = ts.shape.length := by
    rw [hsh']
    unfold subShape
    rw [List.length_zipWith, hkey.length_eq, min_self]
  have hne' : sh' ≠ [] := by
    intro hcon
    apply hne
    have := hlensh
    rw [hcon] at this
    exact List.eq_nil_of_length_eq_zero this.symm
  have hpos' : ∀ x ∈ sh', 0 < x := subShape_pos key ts.shape hkey hpos
  have hLpos : 0 < Shape.Len sh' := len_pos hpos'
  have hkeyok := testKey_ok ts key hkey hpos
  have hnew := newTensor_none ts.typ sh' hne' hpos'
  obtain ⟨tfin, hrun, hc1, hc2, hc3, hc4, hc5, hc6, hc7⟩ :=
    subLoop_spec ts key sh' hwf hkey hsh' (Shape.Len sh').toNat 0
      ⟨sh'.length, zeroBuf ts.typ (Shape.Len sh').toNat, sh', ts.typ,
        stridesAcc 1 sh'⟩
      (by omega) rfl rfl rfl rfl (zeroBuf_ty ts.typ _)
      (by rw [zeroBuf_list, List.length_replicate])
      (fun j hj => absurd hj (Nat.not_lt_zero j))
  refine ⟨tfin, ?_, hc3, ?_, hc1, ?_⟩
  · unfold Tensor.GetSub
    rw [hkeyok, ← hsh']
    simp only [bind, Except.bind, hnew]
    rw [show ((0 : Nat) : Int) = (0 : Int) from rfl] at hrun
    exact hrun
  · rw [hc4, hlensh, hrkS]
  · intro ridx hval
    rw [hc1] at hval
    obtain ⟨e', he', he'0, he'L, hdig'⟩ :=
      offset_of_valid sh' hpos' ridx hval
    have hsrcF : List.Forall₂ (fun d s => 0 ≤ d ∧ d < s)
        (mergeKey key ridx) ts.shape :=
      mergeKey_valid key ts.shape ridx hkey hval
    obtain ⟨e, he, he0, heL, hget, hgetq⟩ :=
      tensor_get_ok ts (mergeKey key ridx) htyS hstrS hlenS hpos hsrcF
    have hso : srcOff ts key (stridesAcc 1 sh') e'.toNat = e.toNat := by
      unfold srcOff
      have hcast : ((e'.toNat : Nat) : Int) = e' := by omega
      rw [hcast, hdig', he]
      rfl
    have he'N : e'.toNat < (Shape.Len sh').toNat := by omega
    have hcell := hc7 e'.toNat he'N
    rw [hso, hgetq] at hcell
    obtain ⟨e2, he2, he20, he2L, hget2, hgetq2⟩ :=
      tensor_get_ok tfin ridx (hc5.trans hc3.symm)
        (by rw [hc2, hc1]) (by rw [hc6, hc1]; omega)
        (by rw [hc1]; exact hpos') (by rw [hc1]; exact hval)
    have he2e' : e2 = e' := by
      rw [hc2] at he2
      rw [he'] at he2
      exact (Option.some.inj he2).symm
    rw [he2e'] at hget2 hgetq2
    have hvals : tfin.data.list.getD e'.toNat 0 =
        ts.data.list.getD e.toNat 0 := by
      rw [hgetq2] at hcell
      exact Option.some.inj hcell
    refine ⟨ts.typ.val (ts.data.list.getD e.toNat 0), ?_, ?_⟩
    · unfold Tensor.Get
      rw [testIndex_ok tfin ridx (by rw [hc1]; exact hval)]
      simp only [bind, Except.bind]
      rw [hget2, hc3, hvals]
    · unfold Tensor.Get
      rw [testIndex_ok ts (mergeKey key ridx) hsrcF]
      simp only [bind, Except.bind]
      exact hget

theorem reshape_preserves_getAt_witness :
    t3.WF ∧ ([1] : Shape) ≠ [] ∧ (∀ x ∈ ([1] : Shape), 0 < x) ∧
      Shape.Len ([1] : Shape) = (t3.data.list.length : Int) ∧
      ∃ t', Tensor.Reshape t3 [1] = .ok t' ∧ t'.data = t3.data ∧
        t'.typ = t3.typ ∧ t'.shape = [1] ∧ t'.rank = ([1] : Shape).length ∧
        ∀ k, Tensor.GetAt t' k = Tensor.GetAt t3 k :=
  ⟨by decide, by decide, by decide, by decide,
    reshape_preserves_getAt t3 [1] (by decide) (by decide) (by decide)
      (by decide)⟩

/-! ## Claim C8: Tensor.Equal -/
theorem eqLoop_spec (eq : Nat → Nat → Bool) (v o : List Nat) :
    ∀ (n i : Nat), i + n = v.length → v.length = o.length →
      eqLoop eq v o i n = .ok (eqList eq (v.drop i) (o.drop i)) := by
  intro n
  induction n with
  | zero =>
    intro i hi hlen
    have h1 : v.drop i = [] := List.drop_eq_nil_of_le (by omega)
    have h2 : o.drop i = [] := List.drop_eq_nil_of_le (by omega)
    simp [eqLoop, h1, h2, eqList]
  | succ n ih =>
    intro i hi hlen
    have hiv : i < v.length := by omega
    have hio : i < o.length := by omega
    have hv : v.get? i = some v[i] := List.get?_eq_get hiv
    have ho : o.get? i = some o[i] := List.get?_eq_get hio
    have hdv : v.drop i = v[i] :: v.drop (i + 1) :=
      List.drop_eq_getElem_cons hiv
    have hdo : o.drop i = o[i] :: o.drop (i + 1) :=
      List.drop_eq_getElem_cons hio
    simp only [eqLoop, hv, ho]
    rw [hdv, hdo]
    simp only [eqList]
    by_cases hab : eq v[i] o[i] = true
    · rw [if_pos hab, ih (i + 1) (by omega) hlen, hab, Bool.true_and]
    · have hab' : eq v[i] o[i] = false := by
        revert hab
        cases eq v[i] o[i] <;> simp
      rw [if_neg hab, hab', Bool.false_and]

theorem elemEq_refl (ty : Ty) (x : Nat) (h : ty.isNaNPat x = false) :
    ty.elemEq x x = true := by
  cases ty with
  | f16 => simp [Ty.elemEq, f16eq]
  | f32 =>
    simp only [Ty.isNaNPat] at h
    simp [Ty.elemEq, f32eq, h]
  | f64 =>
    simp only [Ty.isNaNPat] at h
    simp [Ty.elemEq, f64eq, h]

theorem eqList_refl (eq : Nat → Nat → Bool) (l : List Nat)
    (h : ∀ x ∈ l, eq x x = true) : eqList eq l l = true := by
  induction l with
  | nil => rfl
  | cons a as_ ih =>
    simp [eqList, h a (by simp), ih fun x hx => h x (by simp [hx])]

theorem buf_eq_of_parts {a b : Buf} (hc : a.ty = b.ty)
    (hl : a.list = b.list) : a = b := by
  cases a <;> cases b <;> simp_all [Buf.ty, Buf.list]

/-- When the shape comparison accepts and the tags agree, `Tensor.Equal`
amounts to a pointwise comparison of the first `shape.Len()` elements
under the element type's `==` — which under well-formedness is the
whole of both buffers. -/
theorem tensor_equal_core (a b : Tensor)
    (htya : a.data.ty = a.typ) (htyb : b.data.ty = b.typ)
    (hlena : (a.data.list.length : Int) = Shape.Len a.shape)
    (hlenb : (b.data.list.length : Int) = Shape.Len b.shape)
    (hse : Shape.Equal a.shape b.shape = some true) (hty : a.typ = b.typ) :
    Tensor.Equal a b =
      .ok (eqList (Ty.elemEq a.typ) a.data.list b.data.list) := by
  have hLL := shape_equal_len hse
  have hlen : a.data.list.length = b.data.list.length := by omega
  have hN : 0 + (Shape.Len a.shape).toNat = a.data.list.length := by omega
  have hloop := fun (eqf : Nat → Nat → Bool) (v o : List Nat)
      (hv : 0 + (Shape.Len a.shape).toNat = v.length)
      (hvo : v.length = o.length) =>
    eqLoop_spec eqf v o (Shape.Len a.shape).toNat 0 hv hvo
  rcases hda : a.data with v | v | v <;> rcases hdb : b.data with o | o | o <;>
    rw [hda] at htya <;> rw [hdb] at htyb <;>
    simp only [Buf.ty] at htya htyb <;>
    first
    | exact Ty.noConfusion (htya.trans (hty.trans htyb.symm))
    | · unfold Tensor.Equal
        rw [hda, hdb, ← htya]
        simp only [hse, Buf.list, Ty.elemEq]
        rw [if_neg (by simp [← hty, ← htya])]
        rw [hda, hdb] at hlen
        simp only [Buf.list] at hlen
        rw [hda] at hN
        simp only [Buf.list] at hN
        simp only [List.drop_zero] at hloop
        exact hloop _ v o (by omega) hlen

/-- C8 counterexample.  Three failures of the claim at concrete inputs:
shapes `[6]` and `[6,1]` with identical buffers compare equal though
they are not structurally equal; a well-formed float64 tensor holding a
NaN compares unequal to itself (IEEE `!=`); and the two signed zeros
compare equal though their bit patterns differ. -/
theorem tensor_equal_c8_counterexample :
    Tensor.Equal tA tB = .ok true ∧ tA.shape ≠ tB.shape ∧
      tA.typ = tB.typ ∧ tA.data = tB.data ∧
      tNaN.WF ∧ Tensor.Equal tNaN tNaN = .ok false ∧
      tZp.shape = tZn.shape ∧ tZp.typ = tZn.typ ∧ tZp.data ≠ tZn.data ∧
      Tensor.Equal tZp tZn = .ok true := by
  refine ⟨by decide, by decide, by decide, by decide, by decide, by decide,
    by decide, by decide, by decide, by decide⟩

/-- C8 amended.  For well-formed tensors, `Equal` returns `true` iff the
(rank-blind) shape comparison `Shape.Equal` accepts — equal products
with the first shape an initial segment of the second; structural shape
equality is *not* required — the precision tags match, and corresponding
buffer elements compare equal under the element type's `==`: bitwise for
`Float16` (a `uint16` in the source), IEEE for `float32`/`float64`, so
the signed zeros compare equal and a NaN element compares unequal to
everything.  Consequently `Equal(t,t)` is `true` exactly when the buffer
holds no NaN pattern, and two tensors of identical shape and precision
whose buffers compare pointwise unequal yield `false`. -/
theorem tensor_equal_spec (a b : Tensor) (hwa : a.WF) (hwb : b.WF) :
    (Tensor.Equal a b = .ok true ↔
        (Shape.Equal a.shape b.shape = some true ∧ a.typ = b.typ ∧
          eqList (Ty.elemEq a.typ) a.data.list b.data.list = true)) ∧
      ((∀ x ∈ a.data.list, a.typ.isNaNPat x = false) →
        Tensor.Equal a a = .ok true) ∧
      (a.shape = b.shape → a.typ = b.typ →
        eqList (Ty.elemEq a.typ) a.data.list b.data.list = false →
        Tensor.Equal a b = .ok false) := by
  obtain ⟨-, -, htya, hlena, -, -⟩ := hwa
  obtain ⟨-, -, htyb, hlenb, -, -⟩ := hwb
  refine ⟨⟨?_, ?_⟩, ?_, ?_⟩
  · intro h
    rcases hse : Shape.Equal a.shape b.shape with - | bb
    · unfold Tensor.Equal at h
      rw [hse] at h
      exact absurd h (by simp)
    · cases bb with
      | false =>
        unfold Tensor.Equal at h
        rw [hse] at h
        simp at h
      | true =>
        by_cases hty : a.typ = b.typ
        · have hcore := tensor_equal_core a b htya htyb hlena hlenb hse hty
          rw [hcore] at h
          exact ⟨rfl, hty, Except.ok.inj h⟩
        · unfold Tensor.Equal at h
          rw [hse] at h
          simp only [ne_eq, hty, not_false_eq_true, if_true] at h
          exact absurd h (by simp)
  · rintro ⟨hse, hty, hdata⟩
    rw [tensor_equal_core a b htya htyb hlena hlenb hse hty, hdata]
  · intro hnan
    rw [tensor_equal_core a a htya htya hlena hlena
      (shape_equal_refl a.shape) rfl]
    rw [eqList_refl _ _ fun x hx => elemEq_refl a.typ x (hnan x hx)]
  · intro hsh hty hdata
    rw [tensor_equal_core a b htya htyb hlena hlenb
      (by rw [hsh]; exact shape_equal_refl b.shape) hty, hdata]

theorem tensor_equal_spec_witness :
    t2.WF ∧ t4.WF ∧
      ((Tensor.Equal t2 t4 = .ok true ↔
          (Shape.Equal t2.shape t4.shape = some true ∧ t2.typ = t4.typ ∧
            eqList (Ty.elemEq t2.typ) t2.data.list t4.data.list = true)) ∧
        ((∀ x ∈ t2.data.list, Ty.isNaNPat t2.typ x = false) →
          Tensor.Equal t2 t2 = .ok true) ∧
        (t2.shape = t4.shape → t2.typ = t4.typ →
          eqList (Ty.elemEq t2.typ) t2.data.list t4.data.list = false →
          Tensor.Equal t2 t4 = .ok false)) :=
  ⟨by decide, by decide, tensor_equal_spec t2 t4 (by decide) (by decide)⟩

theorem getSub_spec_witness :
    t4.WF ∧
      List.Forall₂ (fun k s => k = -1 ∨ (0 ≤ k ∧ k < s))
        [-1, 1] t4.shape ∧
      ∃ t', Tensor.GetSub t4 [-1, 1] = .ok t' ∧ t'.typ = t4.typ ∧
        t'.rank = t4.rank ∧ t'.shape = subShape [-1, 1] t4.shape ∧
        ∀ ridx, List.Forall₂ (fun d s => 0 ≤ d ∧ d < s) ridx t'.shape →
          ∃ w, Tensor.Get t' ridx = .ok w ∧
            Tensor.Get t4 (mergeKey [-1, 1] ridx) = .ok w :=
  ⟨by decide,
    List.Forall₂.cons (by norm_num)
      (List.Forall₂.cons (by norm_num) List.Forall₂.nil),
    getSub_spec t4 [-1, 1] (by decide)
      (List.Forall₂.cons (by norm_num)
        (List.Forall₂.cons (by norm_num) List.Forall₂.nil))⟩

/-! ## Claim C10: the String renderer and size-1 axes -/
/-- If some axis at or below level `d` has size 1, the rendering of the
levels from `d` on never reaches an element: it is independent of the
element formatter. -/
theorem toStrAux_render_indep (t : Tensor) (r r' : Val → String) :
    ∀ (fuel : Nat) (d : Nat) (index : List Int),
      (∃ j, d ≤ j ∧ j < t.shape.length ∧ t.shape.get? j = some 1) →
      toStrAux t r fuel d index = toStrAux t r' fuel d index := by
  intro fuel
  induction fuel with
  | zero => intro d index _; rfl
  | succ fuel ih =>
    intro d index h
    obtain ⟨j, hdj, hjl, hj1⟩ := h
    by_cases hd : (d : Int) = Shape.Dim t.shape - 1
    · have hjd : j = d := by
        unfold Shape.Dim at hd
        omega
      rw [hjd] at hj1
      simp only [toStrAux, if_pos hd, hj1]
      rfl
    · have hdl : d < t.shape.length := lt_of_le_of_lt hdj hjl
      have hsz := List.get?_eq_get hdl
      by_cases hsz1 : t.shape.get ⟨d, hdl⟩ = 1
      · rw [hsz1] at hsz
        simp only [toStrAux, if_neg hd, hsz]
        rfl
      · have hjd : j ≠ d := by
          intro hcon
          rw [hcon, hsz] at hj1
          exact hsz1 (Option.some.inj hj1)
      -- recurse: every sublevel call is equal under the two renderers
        have hAll : toStrAux t r fuel (d + 1) = toStrAux t r' fuel (d + 1) :=
          funext fun index0 => ih (d + 1) index0 ⟨j, by omega, hjl, hj1⟩
      -- the functions disagree only through those calls
        simp only [toStrAux, if_neg hd, hsz, hAll]

/-- C10.  A size-1 axis cuts the rendering off before any element is
formatted: `String()` is independent of the element formatter on any
tensor with a size-1 axis, a tensor of shape `(1)` renders as `"[]"`
(its stored value omitted), and a tensor of shape `(2,1)` renders as
`"[[], []]"` (both stored values omitted), because each nesting level
prints its final entry only when the axis size exceeds 1. -/
theorem string_size_one_axes (render render' : Val → String) (t : Tensor)
    (h1 : (1 : Int) ∈ t.shape) :
    Tensor.toString t render = Tensor.toString t render' ∧
      Tensor.toString t10a render = .ok "[]" ∧
      Tensor.toString t10b render = .ok "[[], []]" := by
  refine ⟨?_, ?_, ?_⟩
  · unfold Tensor.toString
    apply toStrAux_render_indep
    obtain ⟨⟨j, hjl⟩, hget⟩ := List.mem_iff_get.mp h1
    exact ⟨j, Nat.zero_le j, hjl, by rw [List.get?_eq_get hjl, hget]⟩
  · rfl
  · rfl

theorem string_size_one_axes_witness :
    (1 : Int) ∈ t10a.shape ∧
      (Tensor.toString t10a renderA = Tensor.toString t10a renderB ∧
        Tensor.toString t10a renderA = .ok "[]" ∧
        Tensor.toString t10b renderA = .ok "[[], []]") :=
  ⟨by decide, string_size_one_axes renderA renderB t10a (by decide)⟩

end GoIA

